import Mathlib

/-!
Verification of the download-orchestration and library-synchronization core
of the squashterm server.

The Python source is shallowly embedded: pure functions become Lean
functions on `List Char` / `String`, the JSON library document becomes a
record, and external effects (the yt-dlp subprocess, the filesystem, thread
scheduling, timestamp parsing) become explicit parameters.  Python
truthiness of optional strings is modelled by `strTruthy`, and the pieces of
`urllib.parse` that the source uses (`urlparse`, `urlunparse`, `parse_qs`)
are modelled character-by-character below.  Modelling notes:

* `urlsplit`'s bracketed-IPv6-host validation is not modelled (it raises in
  Python); theorems that quantify over all URLs therefore assume the input
  has no square brackets.
* `unquote` is modelled at the byte level: a percent escape becomes the
  character with that code point.  Python additionally UTF-8-decodes runs
  of escaped bytes; the two agree on ASCII escapes, and every theorem below
  only ever applies `pyUnquote` to percent-free text.
* `int(str)` is modelled without underscore separators.
-/

namespace SquashTerm

abbrev Chars := List Char

/-! ## Python string primitives -/

def isPySpace (c : Char) : Bool :=
  c = ' ' ∨ c = '\t' ∨ c = '\n' ∨ c = '\r' ∨ c = Char.ofNat 11 ∨ c = Char.ofNat 12

/-- Python `str.strip()` (ASCII whitespace suffices for the model). -/
def pyStrip (l : Chars) : Chars :=
  ((l.dropWhile isPySpace).reverse.dropWhile isPySpace).reverse

/-- `urlsplit` removes tab, CR and LF anywhere in the URL before parsing. -/
def removeUnsafeChars (l : Chars) : Chars :=
  l.filter (fun c => ¬ (c = '\t' ∨ c = '\r' ∨ c = '\n'))

/-- Python substring containment `needle in hay`. -/
def containsSub (needle : Chars) : Chars → Bool
  | [] => needle.isEmpty
  | c :: rest => needle.isPrefixOf (c :: rest) || containsSub needle rest

/-- Python `s.split(sep, 1)` given that `sep` occurs; otherwise `(s, [])`. -/
def splitFirst (sep : Char) (l : Chars) : Chars × Chars :=
  (l.takeWhile (fun c => c ≠ sep), (l.dropWhile (fun c => c ≠ sep)).drop 1)

/-- Python `s.split(sep)` (full split, empty pieces kept). -/
def splitOnChar (sep : Char) : Chars → List Chars
  | [] => [[]]
  | c :: rest =>
    if c = sep then [] :: splitOnChar sep rest
    else
      match splitOnChar sep rest with
      | [] => [[c]]
      | h :: t => (c :: h) :: t

def lowerChars (l : Chars) : Chars := l.map Char.toLower

/-- Python `str(int)` parsing used by `int(value)`: optional sign and digits
(underscore separators are not modelled). -/
def natDigits (l : Chars) : Option Nat :=
  if l ≠ [] ∧ l.all Char.isDigit then
    some (l.foldl (fun a c => a * 10 + (c.toNat - 48)) 0)
  else none

def pyIntOfString (s : String) : Option Int :=
  match pyStrip s.data with
  | '+' :: rest => (natDigits rest).map Int.ofNat
  | '-' :: rest => (natDigits rest).map (fun n => -(n : Int))
  | rest => (natDigits rest).map Int.ofNat

/-- Python truthiness of an optional string (`None` and `""` are falsy). -/
def strTruthy : Option String → Bool
  | none => false
  | some s => s ≠ ""

/-- Python `a or b` on optional strings. -/
def pyOrS (a b : Option String) : Option String :=
  if strTruthy a then a else b

/-- Python `a or "lit"` collapsing to a string. -/
def pyOrStr (a : Option String) (d : String) : String :=
  match a with
  | some s => if s ≠ "" then s else d
  | none => d

/-! ## `urllib.parse` model -/

def isSchemeChar (c : Char) : Bool :=
  c.isAlpha || c.isDigit || c = '+' || c = '-' || c = '.'

/-- The scheme-splitting step of `urlsplit`: a valid scheme before the first
colon is removed and lowercased. -/
def splitSchemePart (url : Chars) : Chars × Chars :=
  let pre := url.takeWhile (fun c => c ≠ ':')
  if pre.length < url.length ∧ pre ≠ [] ∧ (pre.headD ' ').isAlpha ∧ pre.all isSchemeChar then
    (lowerChars pre, url.drop (pre.length + 1))
  else ([], url)

def isNetlocDelim (c : Char) : Bool := c = '/' || c = '?' || c = '#'

/-- The netloc-splitting step of `urlsplit`: after `//`, up to `/ ? #`. -/
def splitNetlocPart (rest : Chars) : Chars × Chars :=
  if rest.take 2 = ['/', '/'] then
    let body := rest.drop 2
    (body.takeWhile (fun c => ¬ isNetlocDelim c), body.dropWhile (fun c => ¬ isNetlocDelim c))
  else ([], rest)

def splitFragmentPart (url : Chars) : Chars × Chars :=
  if url.contains '#' then splitFirst '#' url else (url, [])

def splitQueryPart (url : Chars) : Chars × Chars :=
  if url.contains '?' then splitFirst '?' url else (url, [])

structure SplitParts where
  scheme : Chars
  netloc : Chars
  path : Chars
  query : Chars
  fragment : Chars
deriving DecidableEq, Repr

/-- Model of `urllib.parse.urlsplit` (bracketed-host validation omitted). -/
def pyUrlsplit (url0 : Chars) : SplitParts :=
  let url1 := removeUnsafeChars url0
  let sp := splitSchemePart url1
  let np := splitNetlocPart sp.2
  let fp := splitFragmentPart np.2
  let qp := splitQueryPart fp.1
  { scheme := sp.1, netloc := np.1, path := qp.1, query := qp.2, fragment := fp.2 }

/-- The characters of `l` after its last `/` (the last path segment). -/
def lastSeg (l : Chars) : Chars := (l.reverse.takeWhile (fun c => c ≠ '/')).reverse

/-- The characters of `l` up to and including its last `/`. -/
def headPart (l : Chars) : Chars := (l.reverse.dropWhile (fun c => c ≠ '/')).reverse

/-- Model of `urllib.parse._splitparams`: Python searches for `;` from the
position of the last `/`, which is equivalent to searching the last
segment. -/
def splitParamsPart (url : Chars) : Chars × Chars :=
  if url.contains '/' then
    if (lastSeg url).contains ';' then
      (headPart url ++ (lastSeg url).takeWhile (fun c => c ≠ ';'),
       ((lastSeg url).dropWhile (fun c => c ≠ ';')).drop 1)
    else (url, [])
  else splitFirst ';' url

/-- The params-splitting step of `urlparse` (applied only when the path
contains a `;`). -/
def pathParams (path : Chars) : Chars × Chars :=
  if path.contains ';' then splitParamsPart path else (path, [])

/-- Reattach params to a path, as `urlunparse` does. -/
def joinParams (a b : Chars) : Chars := if b ≠ [] then a ++ ';' :: b else a

structure UrlParts where
  scheme : Chars
  netloc : Chars
  path : Chars
  params : Chars
  query : Chars
  fragment : Chars
deriving DecidableEq, Repr

/-- Model of `urllib.parse.urlparse`. -/
def pyUrlparse (url : Chars) : UrlParts :=
  let s := pyUrlsplit url
  let pp := pathParams s.path
  { scheme := s.scheme, netloc := s.netloc, path := pp.1, params := pp.2,
    query := s.query, fragment := s.fragment }

/-- The `uses_netloc` scheme table of `urllib.parse` (the empty entry can
never match a nonempty scheme and is irrelevant to `urlunsplit`). -/
def usesNetloc : List Chars :=
  [("ftp").data, ("http").data, ("gopher").data, ("nntp").data, ("telnet").data,
   ("imap").data, ("wais").data, ("file").data, ("mms").data, ("https").data,
   ("shttp").data, ("snews").data, ("prospero").data, ("rtsp").data,
   ("rtsps").data, ("rtspu").data, ("rsync").data, ("svn").data,
   ("svn+ssh").data, ("sftp").data, ("nfs").data, ("git").data,
   ("git+ssh").data, ("ws").data, ("wss").data]

/-- Model of `urllib.parse.urlunsplit` (Python 3.11 semantics: the `//` is
reinserted when there is a netloc, or when the scheme is in `uses_netloc`
and the path does not already begin with `//`). -/
def pyUrlunsplit (s : SplitParts) : Chars :=
  let url1 :=
    if s.netloc ≠ [] ∨ (s.scheme ≠ [] ∧ s.scheme ∈ usesNetloc ∧ s.path.take 2 ≠ ['/', '/']) then
      '/' :: '/' :: (s.netloc ++
        (if s.path ≠ [] ∧ s.path.headD ' ' ≠ '/' then '/' :: s.path else s.path))
    else s.path
  let url2 := if s.scheme ≠ [] then s.scheme ++ ':' :: url1 else url1
  let url3 := if s.query ≠ [] then url2 ++ '?' :: s.query else url2
  if s.fragment ≠ [] then url3 ++ '#' :: s.fragment else url3

/-- Model of `urllib.parse.urlunparse`. -/
def pyUrlunparse (p : UrlParts) : Chars :=
  pyUrlunsplit { scheme := p.scheme, netloc := p.netloc,
                 path := joinParams p.path p.params,
                 query := p.query, fragment := p.fragment }

/-! ## `parse_qs` model -/

def hexVal (c : Char) : Option Nat :=
  if c.isDigit then some (c.toNat - 48)
  else if 'a' ≤ c ∧ c ≤ 'f' then some (c.toNat - 87)
  else if 'A' ≤ c ∧ c ≤ 'F' then some (c.toNat - 55)
  else none

/-- Byte-level model of `urllib.parse.unquote` (see the header note). -/
def pyUnquote : Chars → Chars
  | [] => []
  | c :: a :: b :: rest =>
    if c = '%' then
      match hexVal a, hexVal b with
      | some x, some y => Char.ofNat (16 * x + y) :: pyUnquote rest
      | _, _ => '%' :: pyUnquote (a :: b :: rest)
    else c :: pyUnquote (a :: b :: rest)
  | c :: rest => if c = '%' then '%' :: pyUnquote rest else c :: pyUnquote rest

def plusToSpace (l : Chars) : Chars := l.map (fun c => if c = '+' then ' ' else c)

/-- One `name=value` piece of a query string, as `parse_qsl` treats it with
default arguments: empty pieces, pieces with no `=`, and blank values are
dropped; `+` becomes space and percent escapes are unquoted. -/
def qslPair (s : Chars) : Option (Chars × Chars) :=
  if s = [] then none
  else if s.contains '=' then
    let value0 := (s.dropWhile (fun c => c ≠ '=')).drop 1
    if value0 ≠ [] then
      some (pyUnquote (plusToSpace (s.takeWhile (fun c => c ≠ '='))),
            pyUnquote (plusToSpace value0))
    else none
  else none

/-- Model of `parse_qsl` with default arguments (separator `&` only). -/
def pyParseQsl (qs : Chars) : List (Chars × Chars) :=
  (splitOnChar '&' qs).filterMap qslPair

/-- `(parse_qs(qs).get(key) or [None])[0]`: first value for `key`. -/
def qsGetFirst (key : Chars) (qs : Chars) : Option Chars :=
  ((pyParseQsl qs).find? (fun p => p.1 = key)).map (·.2)

/-- `key in parse_qs(qs)`. -/
def qsHasKey (key : Chars) (qs : Chars) : Bool :=
  (pyParseQsl qs).any (fun p => p.1 = key)

/-! ## `normalize_source_url` (library_service.py) -/

def DEFAULT_COVER : String := "/static/images/cover-rise-up.svg"

def canonicalWatchUrl (vid : Chars) : Chars :=
  ("https://www.youtube.com/watch?v=").data ++ vid

/-- `[part for part in path.split("/") if part]`. -/
def pathParts (path : Chars) : List Chars :=
  (splitOnChar '/' path).filter (fun s => s ≠ [])

/-- Truthiness of the `video_id` variable (`None` or `""` are falsy). -/
def truthyOpt : Option Chars → Bool
  | none => false
  | some [] => false
  | some (_ :: _) => true

/-- The video-id extraction chain inside `normalize_source_url`, for a URL
whose lowercased netloc contains a recognized video-hosting domain. -/
def extractVideoId (p : UrlParts) : Option Chars :=
  let netloc := lowerChars p.netloc
  let v1 : Option Chars :=
    if containsSub (("youtu.be").data) netloc then (pathParts p.path).head? else none
  let v2 : Option Chars :=
    if ¬ truthyOpt v1 ∧ (("/watch").data).isPrefixOf p.path then
      qsGetFirst (("v").data) p.query
    else v1
  let v3 : Option Chars :=
    if ¬ truthyOpt v2 ∧ (("/shorts/").data).isPrefixOf p.path then
      match pathParts p.path with
      | _ :: b :: _ => some b
      | _ => v2
    else v2
  let v4 : Option Chars :=
    if ¬ truthyOpt v3 ∧ (("/embed/").data).isPrefixOf p.path then
      match pathParts p.path with
      | _ :: b :: _ => some b
      | _ => v3
    else v3
  v4

/-- `parsed._replace(fragment="")` followed by `urlunparse`. -/
def genericNormalizedUrl (p : UrlParts) : Chars :=
  pyUrlunparse { p with fragment := [] }

def recognizedVideoNetloc (netloc : Chars) : Bool :=
  containsSub (("youtube.com").data) netloc || containsSub (("youtu.be").data) netloc

/-- Model of `library_service.normalize_source_url`. -/
def normalizeSourceUrlChars (url : Option Chars) : Option Chars :=
  match url with
  | none => none
  | some u =>
    if u = [] then none
    else
      let stripped := pyStrip u
      if stripped = [] then none
      else
        let parsed := pyUrlparse stripped
        if parsed.scheme = [] then some stripped
        else
          let netloc := lowerChars parsed.netloc
          if recognizedVideoNetloc netloc then
            match extractVideoId parsed with
            | some vid =>
              if vid ≠ [] then some (canonicalWatchUrl vid)
              else some (genericNormalizedUrl parsed)
            | none => some (genericNormalizedUrl parsed)
          else some (genericNormalizedUrl parsed)

def normalize_source_url (url : Option String) : Option String :=
  (normalizeSourceUrlChars (url.map String.data)).map (fun l => String.mk l)

/-! ## `is_single_video_url` (ytdlp_service.py) -/

/-- Model of `ytdlp_service.is_single_video_url`: `True` means single item,
`False` means collection. -/
def is_single_video_url (url : String) : Bool :=
  let parsed := pyUrlparse url.data
  if containsSub (("youtube.com").data) parsed.netloc ∨
     containsSub (("youtu.be").data) parsed.netloc then
    if qsHasKey (("v").data) parsed.query then true
    else if containsSub (("/playlist").data) parsed.path ∨
            qsHasKey (("list").data) parsed.query then false
    else true
  else if containsSub (("soundcloud.com").data) parsed.netloc then
    ¬ containsSub (("/sets/").data) parsed.path
  else true

/-- Model of the inline classifier of `app.import_playlist_batch` (the one
wired to the batch-import endpoint; `is_single_video_url` is never called).
`is_single_video` starts as `False` and is assigned only inside the YouTube
branch (`'v' in query_params` sets `True`; `'/playlist' in parsed.path or
'list' in query_params` sets `False`; otherwise it keeps its initial value)
and the SoundCloud branch (`'/sets/' in parsed.path` sets `False`, anything
else `True`); every other URL keeps the initial `False`. -/
def import_batch_is_single (url : String) : Bool :=
  let parsed := pyUrlparse url.data
  if containsSub (("youtube.com").data) parsed.netloc ∨
     containsSub (("youtu.be").data) parsed.netloc then
    if qsHasKey (("v").data) parsed.query then true
    else if containsSub (("/playlist").data) parsed.path ∨
            qsHasKey (("list").data) parsed.query then false
    else false
  else if containsSub (("soundcloud.com").data) parsed.netloc then
    ¬ containsSub (("/sets/").data) parsed.path
  else false

/-! ## Data model (models.py and the library JSON document) -/

structure Track where
  id : String
  title : String
  artist : String
  album : String
  cover : String
  duration : String
  bpm : Int
  genre : String
  year : Int
  file_url : Option String
  source_url : Option String
  file_format : Option String
  bitrate_kbps : Option Int
deriving DecidableEq, Repr

/-- A stored track row: `asdict(track)` plus the `file_path` key. -/
structure TrackEntry where
  id : String
  title : String
  artist : String
  album : String
  cover : String
  duration : String
  bpm : Int
  genre : String
  year : Int
  file_url : Option String
  source_url : Option String
  file_format : Option String
  bitrate_kbps : Option Int
  file_path : String
deriving DecidableEq, Repr

/-- A JSON value that may be an int or a string (inputs of
`parse_positive_int`). -/
inductive PyIntStr where
  | pInt (i : Int)
  | pStr (s : String)
deriving DecidableEq, Repr

structure Playlist where
  id : String
  name : String
  track_ids : List String
  auto_sync_url : Option String
  auto_sync_interval_minutes : Option PyIntStr
  auto_sync_enabled : Option Bool
  auto_sync_last_run : Option String
  auto_sync_last_error : Option String
deriving DecidableEq, Repr

structure LibraryDoc where
  tracks : List TrackEntry
  playlists : List Playlist
  favorites : List String
deriving DecidableEq, Repr

/-! ## Track construction (library_service.py) -/

def pad2 (r : Int) : String := if 0 ≤ r ∧ r < 10 then "0" ++ toString r else toString r

/-- Model of `library_service.format_duration`. -/
def format_duration (seconds : Option Int) : String :=
  match seconds with
  | none => "--"
  | some s =>
    if s = 0 then "--"
    else toString (Int.fdiv s 60) ++ ":" ++ pad2 (Int.fmod s 60)

/-- One extractor metadata record; each field is the value of the
corresponding JSON key, `none` when the key is absent.  (Numeric fields are
modelled as integers.) -/
structure Info where
  id : Option String
  track : Option String
  title : Option String
  artist : Option String
  uploader : Option String
  album : Option String
  duration : Option Int
  bpm : Option Int
  genre : Option String
  release_year : Option Int
  year : Option Int
  upload_date : Option String
  webpage_url : Option String
  original_url : Option String
deriving DecidableEq, Repr

/-- Model of `library_service.parse_year`. -/
def parse_year (i : Info) : Int :=
  match i.release_year with
  | some v => v
  | none =>
    match i.year with
    | some v => v
    | none =>
      match i.upload_date with
      | some s =>
        if s.length ≥ 4 then (pyIntOfString (s.take 4)).getD 0 else 0
      | none => 0

/-- Model of `library_service.parse_track_from_info`.  `uuidHex` models the
`uuid.uuid4().hex` fallback used when the record has no `id`. -/
def parse_track_from_info (uuidHex : String) (info : Info) (source_url : Option String) : Track :=
  let resolved :=
    if strTruthy source_url then source_url
    else pyOrS info.webpage_url info.original_url
  { id := "yt_" ++ (match info.id with | some s => s | none => uuidHex)
    title := pyOrStr (pyOrS info.track info.title) ("Unknown Title")
    artist := pyOrStr (pyOrS info.artist info.uploader) ("Unknown Artist")
    album := pyOrStr info.album ("Unknown Album")
    cover := DEFAULT_COVER
    duration := format_duration info.duration
    bpm := info.bpm.getD 0
    genre := pyOrStr info.genre ("Unknown")
    year := parse_year info
    file_url := none
    source_url := resolved
    file_format := none
    bitrate_kbps := none }

/-! ## Ingestion and merge (library_service.py) -/

/-- Model string for the `MEDIA_DIR` directory (its concrete value is
irrelevant to every claim). -/
def MEDIA_DIR_STR : String := "data/media"

def trackEntryOfTrack (t : Track) (fp : String) : TrackEntry :=
  { id := t.id, title := t.title, artist := t.artist, album := t.album,
    cover := t.cover, duration := t.duration, bpm := t.bpm, genre := t.genre,
    year := t.year, file_url := t.file_url, source_url := t.source_url,
    file_format := t.file_format, bitrate_kbps := t.bitrate_kbps,
    file_path := fp }

/-- `track_map[id]`: the dict comprehension keeps the LAST row with each id. -/
def findLastEntry (tracks : List TrackEntry) (tid : String) : Option TrackEntry :=
  tracks.reverse.find? (fun t => t.id = tid)

def updateFirstWhere (p : TrackEntry → Bool) (f : TrackEntry → TrackEntry) :
    List TrackEntry → List TrackEntry
  | [] => []
  | t :: rest => if p t then f t :: rest else t :: updateFirstWhere p f rest

/-- Mutating the row the dict points at: the last row with this id. -/
def updateLastEntry (tracks : List TrackEntry) (tid : String) (f : TrackEntry → TrackEntry) :
    List TrackEntry :=
  (updateFirstWhere (fun t => t.id = tid) f tracks.reverse).reverse

/-- The fill-if-empty merge applied to an existing row. -/
def fillIfEmpty (resolved_cover : Option String) (newSrc : Option String) (e : TrackEntry) :
    TrackEntry :=
  let e1 :=
    if strTruthy resolved_cover ∧ (e.cover = "" ∨ e.cover = DEFAULT_COVER) then
      { e with cover := resolved_cover.getD e.cover }
    else e
  if strTruthy newSrc ∧ ¬ strTruthy e1.source_url then
    { e1 with source_url := newSrc }
  else e1

/-- The body of the `for info in infos` loop of `store_downloaded_tracks`.
`resolve` models `media_utils.resolve_thumbnail_path` (it reads the
filesystem). -/
def storeStep (resolve : Info → Option String) (source_url : Option String)
    (uuidHex : String) (tracks : List TrackEntry) (info : Info) :
    Track × List TrackEntry :=
  let track0 := parse_track_from_info uuidHex info source_url
  let resolved_cover := resolve info
  let track1 :=
    if strTruthy resolved_cover then { track0 with cover := resolved_cover.getD track0.cover }
    else track0
  let stem := match info.id with | some s => s | none => track1.id
  let fname := stem ++ ".mp3"
  let track2 := { track1 with file_url := some ("/media/" ++ fname) }
  let fp := MEDIA_DIR_STR ++ "/" ++ fname
  if (findLastEntry tracks track2.id).isSome then
    (track2, updateLastEntry tracks track2.id (fillIfEmpty resolved_cover track2.source_url))
  else
    (track2, tracks ++ [trackEntryOfTrack track2 fp])

def storeGo (resolve : Info → Option String) (source_url : Option String)
    (uuid : Nat → String) : Nat → List Info → List TrackEntry →
    List Track × List TrackEntry
  | _, [], tracks => ([], tracks)
  | k, info :: rest, tracks =>
    let st := storeStep resolve source_url (uuid k) tracks info
    let rec_ := storeGo resolve source_url uuid (k + 1) rest st.2
    (st.1 :: rec_.1, rec_.2)

def updateFirstPlaylist (pid : String) (f : Playlist → Playlist) :
    List Playlist → List Playlist
  | [] => []
  | p :: rest => if p.id = pid then f p :: rest else p :: updateFirstPlaylist pid f rest

def appendNewIds (current new : List String) : List String :=
  new.foldl (fun acc tid => if tid ∈ acc then acc else acc ++ [tid]) current

/-- Model of `library_service.append_tracks_to_playlist`. -/
def append_tracks_to_playlist (playlist_id : Option String) (track_ids : List String)
    (data : LibraryDoc) : LibraryDoc :=
  if ¬ strTruthy playlist_id then data
  else
    let pid := playlist_id.getD ""
    match data.playlists.find? (fun p => p.id = pid) with
    | none => data
    | some _ =>
      { data with
        playlists := updateFirstPlaylist pid
          (fun p => { p with track_ids := appendNewIds p.track_ids track_ids })
          data.playlists }

/-- Model of `library_service.store_downloaded_tracks`.  `uuid k` models the
fresh `uuid4().hex` drawn while processing the `k`-th record. -/
def store_downloaded_tracks (resolve : Info → Option String) (uuid : Nat → String)
    (infos : List Info) (source_url playlist_id : Option String) (data : LibraryDoc) :
    List Track × LibraryDoc :=
  let go := storeGo resolve source_url uuid 0 infos data.tracks
  let data1 := { data with tracks := go.2 }
  (go.1, append_tracks_to_playlist playlist_id (go.1.map (·.id)) data1)

/-! ## Auto-sync due predicate (sync_service.py, library_service.py) -/

/-- Model of `library_service.parse_positive_int`. -/
def parse_positive_int (v : Option PyIntStr) : Option Int :=
  match v with
  | none => none
  | some (.pInt i) => if i ≤ 0 then none else some i
  | some (.pStr s) =>
    match pyIntOfString s with
    | none => none
    | some i => if i ≤ 0 then none else some i

/-- Model of `sync_service.should_auto_sync_playlist`.  Timestamps are
seconds (as integers); `parseIso` models `datetime.fromisoformat`, returning
`none` exactly when Python raises `ValueError`. -/
def should_auto_sync_playlist (parseIso : String → Option Int) (p : Playlist)
    (now : Int) : Bool :=
  if ¬ strTruthy p.auto_sync_url then false
  else
    match parse_positive_int p.auto_sync_interval_minutes with
    | none => false
    | some interval =>
      if p.auto_sync_enabled = some false then false
      else
        match p.auto_sync_last_run with
        | none => true
        | some lr =>
          if lr = "" then true
          else
            match parseIso lr with
            | none => true
            | some t => decide ((((now : ℚ) - (t : ℚ)) / 60) ≥ (interval : ℚ))

/-! ## Playlist synchronization (sync_service.py) -/

/-- One flat-playlist entry record from the collection listing. -/
structure Entry where
  webpage_url : Option String
  original_url : Option String
  url : Option String
  ie_key : Option String
  id : Option String
  title : Option String
deriving DecidableEq, Repr

/-- Model of `library_service.entry_to_source_url`. -/
def entry_to_source_url (e : Entry) : Option String :=
  let u := pyOrS (pyOrS e.webpage_url e.original_url) e.url
  match u with
  | none => none
  | some s =>
    if s = "" then none
    else if (("http://").data).isPrefixOf s.data ∨ (("https://").data).isPrefixOf s.data then
      some s
    else if lowerChars ((pyOrStr e.ie_key ("")).data) = ("youtube").data ∨
            lowerChars ((pyOrStr e.ie_key ("")).data) = ("youtubeweb").data then
      some ("https://www.youtube.com/watch?v=" ++ s)
    else some s

/-- Model of `sync_service.collect_playlist_source_urls` (a Python set used
only for membership; modelled as a deduplicated list). -/
def collect_playlist_source_urls (p : Playlist) (data : LibraryDoc) : List String :=
  p.track_ids.foldl
    (fun urls tid =>
      match findLastEntry data.tracks tid with
      | none => urls
      | some t =>
        match normalize_source_url t.source_url with
        | none => urls
        | some n => if n = "" ∨ n ∈ urls then urls else urls ++ [n])
    []

/-- The candidate list built by `sync_playlist_with_remote`: each entry is
mapped to a source URL, normalized, and kept when truthy. -/
def entryUrls (entries : List Entry) : List String :=
  entries.filterMap (fun e =>
    match normalize_source_url (entry_to_source_url e) with
    | none => none
    | some s => if s = "" then none else some s)

/-- The ingestion loop of `sync_playlist_with_remote`.  `ingest` models
`ytdlp_service.ingest_from_url` (download plus store), which may raise; the
document is threaded through it.  The third component is instrumentation:
the list of URLs on which `ingest` was invoked, in order. -/
def syncLoop (ingest : String → LibraryDoc → Except String (List Track) × LibraryDoc) :
    List String → LibraryDoc → List Track × List String × List String × LibraryDoc
  | [], d => ([], [], [], d)
  | u :: rest, d =>
    let step := ingest u d
    let r := syncLoop ingest rest step.2
    match step.1 with
    | .ok tracks => (tracks ++ r.1, r.2.1, u :: r.2.2.1, r.2.2.2)
    | .error e => (r.1, (u ++ ": " ++ e) :: r.2.1, u :: r.2.2.1, r.2.2.2)

/-- Model of `library_service.update_playlist_sync_status` (reload, update
the playlist row if still present, save). -/
def update_playlist_sync_status (playlist_id : String) (errors : List String)
    (updated_at : Option String) (data : LibraryDoc) : LibraryDoc :=
  match data.playlists.find? (fun p => p.id = playlist_id) with
  | none => data
  | some _ =>
    { data with
      playlists := updateFirstPlaylist playlist_id
        (fun p => { p with
          auto_sync_last_run := updated_at,
          auto_sync_last_error := some (String.intercalate ("\n") errors) })
        data.playlists }

/-- The result dictionary of `sync_playlist_with_remote`, extended with the
`attempted` instrumentation from `syncLoop`. -/
structure SyncRet where
  missing_count : Nat
  added_count : Nat
  added_tracks : List Track
  errors : List String
  attempted : List String
deriving DecidableEq, Repr

/-- Model of `sync_service.sync_playlist_with_remote`.  `fetch` models
`fetch_flat_playlist_entries` (a subprocess call that may raise), `ingest`
models `ingest_from_url`, and `nowIso` the `datetime.utcnow().isoformat`
value stored as the last-run timestamp.  An `Except.error` result models an
uncaught exception; the document component is the library state after the
call. -/
def sync_playlist_with_remote (fetch : String → Except String (List Entry))
    (ingest : String → LibraryDoc → Except String (List Track) × LibraryDoc)
    (nowIso : String) (playlist_id : String) (data : LibraryDoc) :
    Except String SyncRet × LibraryDoc :=
  match data.playlists.find? (fun p => p.id = playlist_id) with
  | none => (.error ("Playlist not found"), data)
  | some playlist =>
    if ¬ strTruthy playlist.auto_sync_url then
      (.error ("Auto sync URL is missing"), data)
    else
      match fetch (playlist.auto_sync_url.getD "") with
      | .error e => (.error e, data)
      | .ok entries =>
        let entry_urls := entryUrls entries
        let existing := collect_playlist_source_urls playlist data
        let missing := entry_urls.filter (fun u => ¬ u ∈ existing)
        let lp := syncLoop ingest missing data
        let d3 := update_playlist_sync_status playlist_id lp.2.1 (some nowIso) lp.2.2.2
        (.ok { missing_count := missing.length, added_count := lp.1.length,
               added_tracks := lp.1, errors := lp.2.1, attempted := lp.2.2.1 }, d3)

/-- Model of `sync_service.run_due_auto_sync`.  `syncFn` models one whole
sync pass for a playlist (any exception becomes `Except.error`); the second
component of the result is instrumentation: the playlist ids for which a
sync pass was started, in order. -/
def run_due_auto_sync (syncFn : String → LibraryDoc → Except String LibraryDoc)
    (parseIso : String → Option Int) (now : Int) (data : LibraryDoc) :
    LibraryDoc × List String :=
  let due_ids :=
    (data.playlists.filter
      (fun p => p.id ≠ "" ∧ should_auto_sync_playlist parseIso p now)).map (·.id)
  due_ids.foldl
    (fun acc pid =>
      match syncFn pid acc.1 with
      | .ok d => (d, acc.2 ++ [pid])
      | .error _ => (acc.1, acc.2 ++ [pid]))
    (data, [])

/-! ## Download queue counters (download_queue.py) -/

/-- The counter update performed by `process_entry` in
`ThreadPoolDownloadQueue.enqueue_playlist`: on a normal return of
`download_func` the `completed` counter is incremented, on an exception the
`failed` counter is.  (Counter updates are modelled as atomic steps of the
thread interleaving.) -/
def process_entry_counts (outcome : Bool) (s : Nat × Nat) : Nat × Nat :=
  if outcome then (s.1 + 1, s.2) else (s.1, s.2 + 1)

/-- Counters after the workers listed in `order` (an interleaving of entry
indices) have finished, for a batch whose per-entry outcomes are
`outcomes`. -/
def countsAfter (outcomes : List Bool) (order : List Nat) : Nat × Nat :=
  order.foldl (fun s i => process_entry_counts (outcomes.getD i false) s) (0, 0)

/-- Model of `ThreadPoolDownloadQueue.get_status`. -/
def get_status (total : Nat) (s : Nat × Nat) : Nat × Nat × Nat :=
  (total, s.1, s.2)

/-! ## Event streams (app.py / ytdlp_service.py) -/

inductive Ev where
  | start
  | log (msg : String)
  | progress
  | playlist_info (total : Nat)
  | complete (tracks : List Track)
  | error (msg : String)
deriving DecidableEq, Repr

def isTerminal : Ev → Bool
  | .complete _ => true
  | .error _ => true
  | _ => false

/-- Events emitted for one subprocess output line by the reading loop of
`iter_ytdlp_events`: a JSON metadata line emits nothing, any other nonempty
line emits a `log` event and, when the progress pattern matches, a
`progress` event.  `isJson` models the brace test plus `json.loads`, and
`prog` models `parse_progress` (a regex search). -/
def lineEvents (isJson : String → Bool) (prog : String → Bool) (line : String) : List Ev :=
  if line = "" then []
  else if isJson line then []
  else .log line :: (if prog line then [.progress] else [])

/-- Model of `ytdlp_service.iter_ytdlp_events`: the subprocess output is
`lines` (already split), its exit code is `returncode`, and `stored` is the
result of `store_downloaded_tracks` on the collected metadata. -/
def iter_ytdlp_events (isJson : String → Bool) (prog : String → Bool)
    (lines : List String) (returncode : Int) (stored : List Track) : List Ev :=
  let loop := (lines.map (lineEvents isJson prog)).flatten
  let infos := lines.filter (fun l => l ≠ "" ∧ isJson l)
  loop ++
    (if returncode ≠ 0 then [.error ("yt-dlp failed")]
     else if infos = [] then [.error ("yt-dlp did not return metadata")]
     else [.complete stored])

/-- Model of `app._iter_ytdlp_events` (same loop, preceded by a `start`
event). -/
def app_iter_ytdlp_events (isJson : String → Bool) (prog : String → Bool)
    (lines : List String) (returncode : Int) (stored : List Track) : List Ev :=
  .start :: iter_ytdlp_events isJson prog lines returncode stored

/-- The externally determined course of one `_batch_download_playlist` run:
either listing the entries raises, or it returns a list, after which the
polling loop observes `polls` intermediate snapshots and the run either
finishes with final counters and tracks or raises inside the `try` block. -/
inductive BatchRun where
  | fetchError (msg : String)
  | run (entries : List Entry) (polls : List (Nat × Nat))
        (outcome : Except String ((Nat × Nat) × List Track))
deriving Repr

/-- Model of `app._batch_download_playlist` as the sequence of events it
yields. -/
def batch_download_playlist (r : BatchRun) : List Ev :=
  .start ::
    match r with
    | .fetchError msg => [.error msg]
    | .run entries polls outcome =>
      if entries = [] then [.error ("empty playlist")]
      else
        .playlist_info entries.length ::
          (polls.map (fun _ => Ev.progress) ++
            match outcome with
            | .ok (_, tracks) => [.complete tracks]
            | .error msg => [.error msg])

/-! ## C3: the auto-sync due predicate -/

/-- A playlist with a sync URL, a 30-minute interval, and a stored last-run
timestamp. -/
def playlistInterval30 : Playlist :=
  { id := "pl1", name := "mix", track_ids := [],
    auto_sync_url := some ("https://www.youtube.com/playlist?list=PL1"),
    auto_sync_interval_minutes := some (.pInt 30),
    auto_sync_enabled := none,
    auto_sync_last_run := some ("2026-01-01T00:00:00"),
    auto_sync_last_error := none }

def playlistDisabled : Playlist :=
  { playlistInterval30 with auto_sync_enabled := some false }

/-- C3: a playlist is not due without an auto-sync URL, without a positive
interval, or with `auto_sync_enabled` explicitly false; it is due when it
never ran or its stored timestamp is malformed; otherwise it is due iff the
elapsed minutes since the last run reach the interval.  With interval 30, a
last run 31 minutes ago is due and 29 minutes ago is not; a disabled
playlist is never due. -/
theorem auto_sync_due_characterization :
    (∀ (parseIso : String → Option Int) (p : Playlist) (now : Int),
      should_auto_sync_playlist parseIso p now = true ↔
        (strTruthy p.auto_sync_url = true ∧
          ∃ i, parse_positive_int p.auto_sync_interval_minutes = some i ∧
            p.auto_sync_enabled ≠ some false ∧
            (p.auto_sync_last_run = none ∨ p.auto_sync_last_run = some "" ∨
              (∃ s, p.auto_sync_last_run = some s ∧ s ≠ "" ∧ parseIso s = none) ∨
              (∃ s t, p.auto_sync_last_run = some s ∧ s ≠ "" ∧ parseIso s = some t ∧
                (((now : ℚ) - (t : ℚ)) / 60) ≥ (i : ℚ))))) ∧
    should_auto_sync_playlist (fun _ => some 0) playlistInterval30 (31 * 60) = true ∧
    should_auto_sync_playlist (fun _ => some 0) playlistInterval30 (29 * 60) = false ∧
    (∀ (parseIso : String → Option Int) (now : Int),
      should_auto_sync_playlist parseIso playlistDisabled now = false) := by
  refine ⟨?_, ?_, ?_, ?_⟩
  · intro parseIso p now
    unfold should_auto_sync_playlist
    cases hu : strTruthy p.auto_sync_url with
    | false => simp [hu]
    | true =>
      cases hi : parse_positive_int p.auto_sync_interval_minutes with
      | none => simp [hi]
      | some i =>
        by_cases he : p.auto_sync_enabled = some false
        · simp [he, hi]
        · cases hlr : p.auto_sync_last_run with
          | none => simp [hi, he, hlr]
          | some s =>
            by_cases hs : s = ""
            · subst hs; simp [hi, he, hlr]
            · cases hpi : parseIso s with
              | none => simp [hi, he, hlr, hs, hpi]
              | some t => simp [hi, he, hlr, hs, hpi, ge_iff_le]
  · simp [should_auto_sync_playlist, playlistInterval30, parse_positive_int, strTruthy]
    norm_num
  · simp [should_auto_sync_playlist, playlistInterval30, parse_positive_int, strTruthy]
    norm_num
  · intro parseIso now
    simp [should_auto_sync_playlist, playlistDisabled, playlistInterval30, strTruthy,
      parse_positive_int]

/-! ## List helper lemmas for the merge theorems -/

theorem find?_split {α : Type} {p : α → Bool} {l : List α} {e : α}
    (h : l.find? p = some e) :
    ∃ a b, l = a ++ e :: b ∧ (∀ x ∈ a, p x = false) ∧ p e = true := by
  induction l with
  | nil => simp [List.find?] at h
  | cons x rest ih =>
    cases hx : p x with
    | true =>
      have hxe : x = e := by
        simp only [List.find?, hx] at h
        simpa using h
      subst hxe
      exact ⟨[], rest, by simp, by simp, hx⟩
    | false =>
      simp only [List.find?, hx] at h
      obtain ⟨a, b, hl, ha, hpe⟩ := ih h
      refine ⟨x :: a, b, by simp [hl], ?_, hpe⟩
      intro y hy
      rcases List.mem_cons.mp hy with rfl | hy'
      · exact hx
      · exact ha y hy'

theorem updateFirstWhere_append {p : TrackEntry → Bool} {f : TrackEntry → TrackEntry}
    {a : List TrackEntry} (b : List TrackEntry) {e : TrackEntry}
    (ha : ∀ x ∈ a, p x = false) (he : p e = true) :
    updateFirstWhere p f (a ++ e :: b) = a ++ f e :: b := by
  induction a with
  | nil => simp [updateFirstWhere, he]
  | cons x rest ih =>
    have hx := ha x (by simp)
    have ih' := ih (fun y hy => ha y (by simp [hy]))
    simp [updateFirstWhere, hx, ih']

/-- A successful `track_map` lookup splits the row list around the last row
with the looked-up id, and `updateLastEntry` rewrites exactly that row. -/
theorem findLastEntry_split {tracks : List TrackEntry} {tid : String} {e0 : TrackEntry}
    (h : findLastEntry tracks tid = some e0) :
    ∃ pre post, tracks = pre ++ e0 :: post ∧ (∀ x ∈ post, x.id ≠ tid) ∧ e0.id = tid ∧
      ∀ f, updateLastEntry tracks tid f = pre ++ f e0 :: post := by
  obtain ⟨a, b, hl, ha, hpe⟩ := find?_split h
  refine ⟨b.reverse, a.reverse, ?_, ?_, by simpa using hpe, ?_⟩
  · have := congrArg List.reverse hl
    simpa using this
  · intro x hx
    have := ha x (by simpa using hx)
    simpa using this
  · intro f
    unfold updateLastEntry
    rw [hl, updateFirstWhere_append _ ha hpe]
    simp

/-- `append_tracks_to_playlist` only ever touches the playlists component. -/
theorem append_preserves_tracks_favorites (pid : Option String) (ids : List String)
    (d : LibraryDoc) :
    (append_tracks_to_playlist pid ids d).tracks = d.tracks ∧
    (append_tracks_to_playlist pid ids d).favorites = d.favorites := by
  unfold append_tracks_to_playlist
  by_cases hp : strTruthy pid = true
  · simp only [hp]
    cases hf : d.playlists.find? (fun p => p.id = pid.getD "") with
    | none => simp [hf]
    | some q => simp [hf]
  · simp [hp]

/-! ## C1: fill-if-empty merge never regresses data -/

/-- C1: when the derived track id of a metadata record already has a row in
the document, ingestion rewrites exactly that row: every field except the
cover and source URL is kept; the cover is replaced only when the stored
cover is blank or the default and a resolved cover exists; the source URL is
replaced only when the stored one is absent or blank and the new record
carries one.  All other rows, and the favorites, are untouched.  (Ingesting
the same item twice with the second payload missing a field keeps the field:
the second call is an instance of this statement.) -/
theorem store_merge_fill_if_empty
    (resolve : Info → Option String) (uuid : Nat → String) (info : Info)
    (su pid : Option String) (doc : LibraryDoc) (e0 : TrackEntry)
    (h : findLastEntry doc.tracks (parse_track_from_info (uuid 0) info su).id = some e0) :
    ∃ pre post,
      doc.tracks = pre ++ e0 :: post ∧
      (store_downloaded_tracks resolve uuid [info] su pid doc).2.tracks
        = pre ++ fillIfEmpty (resolve info) (parse_track_from_info (uuid 0) info su).source_url e0
            :: post ∧
      (store_downloaded_tracks resolve uuid [info] su pid doc).2.favorites = doc.favorites ∧
      (let e := fillIfEmpty (resolve info) (parse_track_from_info (uuid 0) info su).source_url e0
       e.id = e0.id ∧ e.title = e0.title ∧ e.artist = e0.artist ∧ e.album = e0.album ∧
       e.duration = e0.duration ∧ e.bpm = e0.bpm ∧ e.genre = e0.genre ∧ e.year = e0.year ∧
       e.file_url = e0.file_url ∧ e.file_format = e0.file_format ∧
       e.bitrate_kbps = e0.bitrate_kbps ∧ e.file_path = e0.file_path ∧
       e.cover = (if strTruthy (resolve info) ∧ (e0.cover = "" ∨ e0.cover = DEFAULT_COVER)
                  then (resolve info).getD e0.cover else e0.cover) ∧
       e.source_url =
         (if strTruthy (parse_track_from_info (uuid 0) info su).source_url ∧
             ¬ strTruthy e0.source_url
          then (parse_track_from_info (uuid 0) info su).source_url else e0.source_url)) := by
  obtain ⟨pre, post, hsplit, hpost, hid, hupd⟩ := findLastEntry_split h
  have hstep : (storeStep resolve su (uuid 0) doc.tracks info).2
      = updateLastEntry doc.tracks (parse_track_from_info (uuid 0) info su).id
          (fillIfEmpty (resolve info) (parse_track_from_info (uuid 0) info su).source_url) := by
    unfold storeStep
    by_cases hc : strTruthy (resolve info) = true <;> simp [hc, h]
  refine ⟨pre, post, hsplit, ?_, ?_, ?_⟩
  · have htracks : (store_downloaded_tracks resolve uuid [info] su pid doc).2.tracks
        = (storeStep resolve su (uuid 0) doc.tracks info).2 := by
      unfold store_downloaded_tracks
      rw [(append_preserves_tracks_favorites _ _ _).1]
      simp [storeGo]
    rw [htracks, hstep, hupd]
  · unfold store_downloaded_tracks
    rw [(append_preserves_tracks_favorites _ _ _).2]
  · by_cases h1 : strTruthy (resolve info) = true ∧ (e0.cover = "" ∨ e0.cover = DEFAULT_COVER) <;>
      by_cases h2 : strTruthy (parse_track_from_info (uuid 0) info su).source_url = true
          ∧ strTruthy e0.source_url = false <;>
      simp [fillIfEmpty, h1, h2]

/-! ## C10: ingestion with an unknown playlist id -/

/-- C10: when the given playlist id matches no playlist, ingestion behaves
exactly as ingestion with no playlist id: the downloaded tracks are merged
and returned normally, the playlist-append step is skipped, and every
playlist (and the favorites list) is left unchanged. -/
theorem store_unknown_playlist_skips_append
    (resolve : Info → Option String) (uuid : Nat → String) (infos : List Info)
    (source_url : Option String) (pid : String) (doc : LibraryDoc)
    (h : ∀ p ∈ doc.playlists, p.id ≠ pid) :
    (store_downloaded_tracks resolve uuid infos source_url (some pid) doc).2.playlists
        = doc.playlists ∧
    (store_downloaded_tracks resolve uuid infos source_url (some pid) doc).2.favorites
        = doc.favorites ∧
    store_downloaded_tracks resolve uuid infos source_url (some pid) doc
      = store_downloaded_tracks resolve uuid infos source_url none doc := by
  have happ : ∀ (ids : List String) (tr : List TrackEntry) (fv : List String),
      append_tracks_to_playlist (some pid) ids
        { tracks := tr, playlists := doc.playlists, favorites := fv }
      = { tracks := tr, playlists := doc.playlists, favorites := fv } := by
    intro ids tr fv
    unfold append_tracks_to_playlist
    by_cases hp : strTruthy (some pid) = true
    · have hfind : doc.playlists.find? (fun p => p.id = pid) = none := by
        apply List.find?_eq_none.mpr
        intro p hp'
        simp only [decide_eq_true_eq]
        exact h p hp'
      simp [hp, hfind]
    · simp [hp]
  constructor
  · simp only [store_downloaded_tracks]
    rw [happ]
  constructor
  · simp only [store_downloaded_tracks]
    rw [happ]
  · simp only [store_downloaded_tracks]
    rw [happ]
    simp [append_tracks_to_playlist, strTruthy]

/-! Concrete witnesses for the merge theorems. -/

def infoW : Info :=
  { id := some ("abc"), track := none, title := some ("Song"), artist := none,
    uploader := none, album := none, duration := some 61, bpm := none,
    genre := none, release_year := none, year := none, upload_date := none,
    webpage_url := none, original_url := none }

def entryW : TrackEntry :=
  { id := "yt_abc", title := "Old Title", artist := "A", album := "B",
    cover := DEFAULT_COVER, duration := "1:01", bpm := 0, genre := "g",
    year := 0, file_url := some ("/media/abc.mp3"),
    source_url := some ("https://x/1"), file_format := none,
    bitrate_kbps := none, file_path := "data/media/abc.mp3" }

def docW : LibraryDoc := { tracks := [entryW], playlists := [], favorites := [] }

theorem store_merge_fill_if_empty_witness :
    ∃ pre post,
      docW.tracks = pre ++ entryW :: post ∧
      (store_downloaded_tracks (fun _ => none) (fun _ => "u0") [infoW]
          (some ("https://src/2")) none docW).2.tracks
        = pre ++ fillIfEmpty none
            (parse_track_from_info ("u0") infoW (some ("https://src/2"))).source_url entryW
            :: post := by
  obtain ⟨pre, post, h1, h2, h3, h4⟩ :=
    store_merge_fill_if_empty (fun _ => none) (fun _ => "u0") infoW
      (some ("https://src/2")) none docW entryW (by decide)
  exact ⟨pre, post, h1, h2⟩

def docW2 : LibraryDoc :=
  { tracks := [], playlists := [playlistInterval30], favorites := [] }

theorem store_unknown_playlist_witness :
    (store_downloaded_tracks (fun _ => none) (fun _ => "u1") [infoW] none
        (some ("nope")) docW2).2.playlists = docW2.playlists :=
  (store_unknown_playlist_skips_append (fun _ => none) (fun _ => "u1") [infoW]
      none ("nope") docW2 (by decide)).1

/-! ## C2: batch status counters -/

theorem countsFold_eq_gen (p : Nat → Bool) (l : List Nat) (s : Nat × Nat) :
    l.foldl (fun s i => process_entry_counts (p i) s) s
      = (s.1 + (l.filter p).length, s.2 + (l.filter (fun i => ! p i)).length) := by
  induction l generalizing s with
  | nil => simp
  | cons i rest ih =>
    rw [List.foldl_cons, ih]
    cases ho : p i with
    | true =>
      simp [process_entry_counts, ho, List.filter_cons, Prod.ext_iff]
      omega
    | false =>
      simp [process_entry_counts, ho, List.filter_cons, Prod.ext_iff]
      omega

theorem countsAfter_eq (outcomes : List Bool) (l : List Nat) :
    countsAfter outcomes l
      = ((l.filter (fun i => outcomes.getD i false)).length,
         (l.filter (fun i => ! outcomes.getD i false)).length) := by
  have := countsFold_eq_gen (fun i => outcomes.getD i false) l (0, 0)
  unfold countsAfter
  rw [this]
  simp

theorem filter_not_length (p : Nat → Bool) (l : List Nat) :
    (l.filter p).length + (l.filter (fun i => ! p i)).length = l.length := by
  induction l with
  | nil => simp
  | cons i rest ih => cases h : p i <;> simp [List.filter_cons, h] <;> omega

theorem countsAfter_sum (outcomes : List Bool) (l : List Nat) :
    (countsAfter outcomes l).1 + (countsAfter outcomes l).2 = l.length := by
  rw [countsAfter_eq]
  exact filter_not_length (fun i => outcomes.getD i false) l

/-- The number of entries of a batch whose outcome is failure. -/
def failedCount (outcomes : List Bool) : Nat :=
  ((List.range outcomes.length).filter (fun i => ! outcomes.getD i false)).length

/-- C2: over any thread interleaving (`order`, the sequence of entry indices
whose worker finishes next; each entry reports exactly one outcome), the
`completed`/`failed` counters read by `get_status` are monotonically
non-decreasing, their sum never exceeds the batch size, and when every entry
has been processed the sum equals the batch size — and only then, so
`completed + failed = total` holds exactly once, at completion.  With `k`
failures among `N` entries the final snapshot is
`(total, completed, failed) = (N, N - k, k)`: a failure is counted, never
propagated, so it does not abort the rest of the batch. -/
theorem batch_status_invariant (outcomes : List Bool) (order : List Nat)
    (hnd : order.Nodup) (hbound : ∀ i ∈ order, i < outcomes.length) :
    (∀ j : Nat,
       (countsAfter outcomes (order.take j)).1 ≤ (countsAfter outcomes (order.take (j + 1))).1 ∧
       (countsAfter outcomes (order.take j)).2 ≤ (countsAfter outcomes (order.take (j + 1))).2) ∧
    (∀ j : Nat,
       (countsAfter outcomes (order.take j)).1 + (countsAfter outcomes (order.take j)).2
         ≤ outcomes.length) ∧
    (order.length = outcomes.length →
       ((∀ j : Nat,
           (countsAfter outcomes (order.take j)).1 + (countsAfter outcomes (order.take j)).2
             = outcomes.length ↔ outcomes.length ≤ j) ∧
        get_status outcomes.length (countsAfter outcomes order)
          = (outcomes.length, outcomes.length - failedCount outcomes, failedCount outcomes))) := by
  have hlen : order.length ≤ outcomes.length := by
    have h1 : order.toFinset.card = order.length := List.toFinset_card_of_nodup hnd
    have h2 : order.toFinset ⊆ Finset.range outcomes.length := by
      intro i hi
      exact Finset.mem_range.mpr (hbound i (List.mem_toFinset.mp hi))
    calc order.length = order.toFinset.card := h1.symm
      _ ≤ (Finset.range outcomes.length).card := Finset.card_le_card h2
      _ = outcomes.length := Finset.card_range _
  have hsumtake : ∀ j : Nat,
      (countsAfter outcomes (order.take j)).1 + (countsAfter outcomes (order.take j)).2
        = min j order.length := by
    intro j
    rw [countsAfter_sum]
    exact List.length_take ..
  refine ⟨?_, ?_, ?_⟩
  · intro j
    rw [List.take_succ]
    unfold countsAfter
    rw [List.foldl_append]
    cases hj : order[j]? with
    | none => simp
    | some i =>
      simp only [Option.toList_some, List.foldl_cons, List.foldl_nil]
      cases houtcome : outcomes.getD i false <;>
        simp [process_entry_counts, houtcome]
  · intro j
    rw [hsumtake j]
    omega
  · intro hcomplete
    constructor
    · intro j
      rw [hsumtake j]
      omega
    · have hperm : order.Perm (List.range outcomes.length) := by
        apply List.perm_of_nodup_nodup_toFinset_eq hnd (List.nodup_range _)
        apply Finset.eq_of_subset_of_card_le
        · intro i hi
          have := hbound i (List.mem_toFinset.mp hi)
          simp [List.mem_toFinset, List.mem_range, this]
        · rw [List.toFinset_card_of_nodup (List.nodup_range _),
            List.toFinset_card_of_nodup hnd, hcomplete, List.length_range]
      have hfail : (countsAfter outcomes order).2 = failedCount outcomes := by
        rw [countsAfter_eq]
        exact (hperm.filter (fun i => ! outcomes.getD i false)).length_eq
      have hsum := countsAfter_sum outcomes order
      rw [hcomplete] at hsum
      have hcomp : (countsAfter outcomes order).1
          = outcomes.length - failedCount outcomes := by omega
      unfold get_status
      rw [hfail, hcomp]

theorem batch_status_invariant_witness :
    get_status ([true, false, true] : List Bool).length (countsAfter [true, false, true] [2, 0, 1])
      = (([true, false, true] : List Bool).length,
         ([true, false, true] : List Bool).length - failedCount [true, false, true],
         failedCount [true, false, true]) :=
  ((batch_status_invariant [true, false, true] [2, 0, 1] (by decide) (by decide)).2.2
    (by decide)).2

/-! ## C4 and C7: playlist synchronization -/

/-- Every URL in the missing list is passed to `ingest_from_url`, in order,
whatever the ingestion outcomes are. -/
theorem syncLoop_attempted
    (ingest : String → LibraryDoc → Except String (List Track) × LibraryDoc) :
    ∀ (urls : List String) (d : LibraryDoc), (syncLoop ingest urls d).2.2.1 = urls := by
  intro urls
  induction urls with
  | nil => intro d; rfl
  | cons u rest ih =>
    intro d
    unfold syncLoop
    cases h : (ingest u d).1 <;> simp [h, ih]

theorem run_due_foldl_attempted (syncFn : String → LibraryDoc → Except String LibraryDoc) :
    ∀ (ids : List String) (d : LibraryDoc) (acc : List String),
      (ids.foldl
        (fun acc pid =>
          match syncFn pid acc.1 with
          | .ok d => (d, acc.2 ++ [pid])
          | .error _ => (acc.1, acc.2 ++ [pid])) (d, acc)).2 = acc ++ ids := by
  intro ids
  induction ids with
  | nil => intro d acc; simp
  | cons pid rest ih =>
    intro d acc
    simp only [List.foldl_cons]
    cases h : syncFn pid d <;> simp [h, ih]

/-- The missing-URL list computed by one sync pass. -/
def missingUrls (entries : List Entry) (playlist : Playlist) (data : LibraryDoc) :
    List String :=
  (entryUrls entries).filter (fun u => ¬ u ∈ collect_playlist_source_urls playlist data)

/-- Concrete sync scenario: two stored tracks normalizing to A and B, a
remote collection normalizing to A, B, C. -/
def entryA : Entry :=
  { webpage_url := some ("https://a.example/1"), original_url := none, url := none,
    ie_key := none, id := none, title := none }

def entryB : Entry := { entryA with webpage_url := some ("https://b.example/2") }

def entryC : Entry := { entryA with webpage_url := some ("https://c.example/3") }

def trackA : TrackEntry :=
  { entryW with id := "ta", source_url := some ("https://a.example/1") }

def trackB : TrackEntry :=
  { entryW with id := "tb", source_url := some ("https://b.example/2") }

def playlistSync : Playlist :=
  { id := "pl2", name := "s", track_ids := ["ta", "tb"],
    auto_sync_url := some ("https://remote.example/list"),
    auto_sync_interval_minutes := none, auto_sync_enabled := none,
    auto_sync_last_run := none, auto_sync_last_error := none }

def docSync : LibraryDoc :=
  { tracks := [trackA, trackB], playlists := [playlistSync], favorites := [] }

def fetchW : String → Except String (List Entry) := fun _ => .ok [entryA, entryB, entryC]

def ingestOkW : String → LibraryDoc → Except String (List Track) × LibraryDoc :=
  fun _ d => (.ok [], d)

/-- C4: the missing list is the normalized candidate sequence minus the
normalized source URLs of the playlist's tracks (as sets), it is
order-preserving (a sublist of the candidate sequence), a successful sync
call reports its length as `missing_count` and ingests exactly those URLs;
and in the concrete A,B versus A,B,C scenario the call reports
`missing_count = 1` and ingestion is attempted only for C. -/
theorem sync_diff_correctness :
    (∀ (entries : List Entry) (playlist : Playlist) (data : LibraryDoc) (u : String),
       u ∈ missingUrls entries playlist data ↔
         (u ∈ entryUrls entries ∧ ¬ u ∈ collect_playlist_source_urls playlist data)) ∧
    (∀ (entries : List Entry) (playlist : Playlist) (data : LibraryDoc),
       (missingUrls entries playlist data).Sublist (entryUrls entries)) ∧
    (∀ (fetch : String → Except String (List Entry))
       (ingest : String → LibraryDoc → Except String (List Track) × LibraryDoc)
       (nowIso pid : String) (data : LibraryDoc) (playlist : Playlist)
       (entries : List Entry),
       data.playlists.find? (fun p => p.id = pid) = some playlist →
       strTruthy playlist.auto_sync_url = true →
       fetch (playlist.auto_sync_url.getD "") = .ok entries →
       ∃ r d', sync_playlist_with_remote fetch ingest nowIso pid data = (.ok r, d') ∧
         r.missing_count = (missingUrls entries playlist data).length ∧
         r.attempted = missingUrls entries playlist data) ∧
    ((sync_playlist_with_remote fetchW ingestOkW ("2026-01-01T00:00:00") ("pl2") docSync).1
       = .ok { missing_count := 1, added_count := 0, added_tracks := [], errors := [],
               attempted := ["https://c.example/3"] }) := by
  refine ⟨?_, ?_, ?_, ?_⟩
  · intro entries playlist data u
    unfold missingUrls
    simp [List.mem_filter]
  · intro entries playlist data
    exact List.filter_sublist _
  · intro fetch ingest nowIso pid data playlist entries hfind hurl hfetch
    unfold sync_playlist_with_remote
    rw [hfind]
    simp only [hurl, Bool.not_true, if_false, hfetch]
    exact ⟨_, _, rfl, rfl, syncLoop_attempted ingest _ _⟩
  · rfl

/-- C7: a sync call for an unknown playlist id or for a playlist with no
auto-sync URL fails hard, leaving the document untouched; a listing failure
likewise; per-item ingestion failures inside the loop are soft — a failing
URL contributes exactly one `"url: message"` error string and the remaining
URLs are still ingested, and the call still returns an aggregate result; and
the scheduler starts a sync pass for every due playlist even when passes for
earlier playlists fail. -/
theorem sync_error_propagation :
    (∀ (fetch : String → Except String (List Entry))
       (ingest : String → LibraryDoc → Except String (List Track) × LibraryDoc)
       (nowIso pid : String) (data : LibraryDoc),
       data.playlists.find? (fun p => p.id = pid) = none →
       sync_playlist_with_remote fetch ingest nowIso pid data
         = (.error ("Playlist not found"), data)) ∧
    (∀ (fetch : String → Except String (List Entry))
       (ingest : String → LibraryDoc → Except String (List Track) × LibraryDoc)
       (nowIso pid : String) (data : LibraryDoc) (playlist : Playlist),
       data.playlists.find? (fun p => p.id = pid) = some playlist →
       strTruthy playlist.auto_sync_url = false →
       sync_playlist_with_remote fetch ingest nowIso pid data
         = (.error ("Auto sync URL is missing"), data)) ∧
    (∀ (fetch : String → Except String (List Entry))
       (ingest : String → LibraryDoc → Except String (List Track) × LibraryDoc)
       (nowIso pid : String) (data : LibraryDoc) (playlist : Playlist) (msg : String),
       data.playlists.find? (fun p => p.id = pid) = some playlist →
       strTruthy playlist.auto_sync_url = true →
       fetch (playlist.auto_sync_url.getD "") = .error msg →
       sync_playlist_with_remote fetch ingest nowIso pid data = (.error msg, data)) ∧
    (∀ (ingest : String → LibraryDoc → Except String (List Track) × LibraryDoc)
       (u : String) (rest : List String) (d d1 : LibraryDoc) (e : String),
       ingest u d = (.error e, d1) →
       syncLoop ingest (u :: rest) d
         = ((syncLoop ingest rest d1).1,
            (u ++ ": " ++ e) :: (syncLoop ingest rest d1).2.1,
            u :: (syncLoop ingest rest d1).2.2.1,
            (syncLoop ingest rest d1).2.2.2)) ∧
    (∀ (fetch : String → Except String (List Entry))
       (ingest : String → LibraryDoc → Except String (List Track) × LibraryDoc)
       (nowIso pid : String) (data : LibraryDoc) (playlist : Playlist)
       (entries : List Entry),
       data.playlists.find? (fun p => p.id = pid) = some playlist →
       strTruthy playlist.auto_sync_url = true →
       fetch (playlist.auto_sync_url.getD "") = .ok entries →
       ∃ r d', sync_playlist_with_remote fetch ingest nowIso pid data = (.ok r, d') ∧
         r.attempted = missingUrls entries playlist data) ∧
    (∀ (syncFn : String → LibraryDoc → Except String LibraryDoc)
       (parseIso : String → Option Int) (now : Int) (data : LibraryDoc),
       (run_due_auto_sync syncFn parseIso now data).2
         = ((data.playlists.filter
              (fun p => p.id ≠ "" ∧ should_auto_sync_playlist parseIso p now)).map (·.id))) := by
  refine ⟨?_, ?_, ?_, ?_, ?_, ?_⟩
  · intro fetch ingest nowIso pid data hfind
    unfold sync_playlist_with_remote
    rw [hfind]
  · intro fetch ingest nowIso pid data playlist hfind hurl
    unfold sync_playlist_with_remote
    rw [hfind]
    simp [hurl]
  · intro fetch ingest nowIso pid data playlist msg hfind hurl hfetch
    unfold sync_playlist_with_remote
    rw [hfind]
    simp [hurl, hfetch]
  · intro ingest u rest d d1 e hing
    simp [syncLoop, hing]
  · intro fetch ingest nowIso pid data playlist entries hfind hurl hfetch
    unfold sync_playlist_with_remote
    rw [hfind]
    simp only [hurl, Bool.not_true, if_false, hfetch]
    exact ⟨_, _, rfl, syncLoop_attempted ingest _ _⟩
  · intro syncFn parseIso now data
    unfold run_due_auto_sync
    exact run_due_foldl_attempted syncFn _ data []

theorem sync_diff_correctness_witness :
    ∃ r d',
      sync_playlist_with_remote fetchW ingestOkW ("2026-01-01T00:00:00") ("pl2") docSync
        = (.ok r, d') ∧
      r.missing_count = (missingUrls [entryA, entryB, entryC] playlistSync docSync).length ∧
      r.attempted = missingUrls [entryA, entryB, entryC] playlistSync docSync :=
  sync_diff_correctness.2.2.1 fetchW ingestOkW ("2026-01-01T00:00:00") ("pl2") docSync
    playlistSync [entryA, entryB, entryC] (by rfl) (by rfl) (by rfl)

def playlistNoUrl : Playlist := { playlistSync with id := "pl3", auto_sync_url := none }

def docNoUrl : LibraryDoc := { docSync with playlists := [playlistNoUrl] }

def ingestFailW : String → LibraryDoc → Except String (List Track) × LibraryDoc :=
  fun _ d => (.error ("boom"), d)

def fetchFailW : String → Except String (List Entry) := fun _ => .error ("net down")

def syncFnFailW : String → LibraryDoc → Except String LibraryDoc :=
  fun _ _ => .error ("kaput")

theorem sync_error_propagation_witness :
    sync_playlist_with_remote fetchW ingestOkW ("t") ("zz") docSync
      = (.error ("Playlist not found"), docSync) ∧
    sync_playlist_with_remote fetchW ingestOkW ("t") ("pl3") docNoUrl
      = (.error ("Auto sync URL is missing"), docNoUrl) ∧
    sync_playlist_with_remote fetchFailW ingestOkW ("t") ("pl2") docSync
      = (.error ("net down"), docSync) ∧
    syncLoop ingestFailW ["u1"] docSync
      = ((syncLoop ingestFailW [] docSync).1,
         ("u1" ++ ": " ++ "boom") :: (syncLoop ingestFailW [] docSync).2.1,
         "u1" :: (syncLoop ingestFailW [] docSync).2.2.1,
         (syncLoop ingestFailW [] docSync).2.2.2) ∧
    (∃ r d',
      sync_playlist_with_remote fetchW ingestFailW ("t") ("pl2") docSync = (.ok r, d') ∧
      r.attempted = missingUrls [entryA, entryB, entryC] playlistSync docSync) ∧
    (run_due_auto_sync syncFnFailW (fun _ => some 0) 0 docSync).2
      = ((docSync.playlists.filter
           (fun p => p.id ≠ "" ∧ should_auto_sync_playlist (fun _ => some 0) p 0)).map (·.id)) := by
  refine ⟨?_, ?_, ?_, ?_, ?_, ?_⟩
  · exact sync_error_propagation.1 fetchW ingestOkW ("t") ("zz") docSync (by rfl)
  · exact sync_error_propagation.2.1 fetchW ingestOkW ("t") ("pl3") docNoUrl playlistNoUrl
      (by rfl) (by rfl)
  · exact sync_error_propagation.2.2.1 fetchFailW ingestOkW ("t") ("pl2") docSync
      playlistSync ("net down") (by rfl) (by rfl) (by rfl)
  · exact sync_error_propagation.2.2.2.1 ingestFailW ("u1") [] docSync docSync ("boom")
      (by rfl)
  · exact sync_error_propagation.2.2.2.2.1 fetchW ingestFailW ("t") ("pl2") docSync
      playlistSync [entryA, entryB, entryC] (by rfl) (by rfl) (by rfl)
  · exact sync_error_propagation.2.2.2.2.2 syncFnFailW (fun _ => some 0) 0 docSync

/-! ## C8: exactly one terminal event per stream -/

/-- A well-terminated stream: a (possibly empty) run of non-terminal events
followed by exactly one terminal event, with nothing after it. -/
def streamOk (evs : List Ev) : Prop :=
  (∃ pre t, evs = pre ++ [t] ∧ isTerminal t = true ∧ ∀ e ∈ pre, isTerminal e = false) ∧
  (evs.filter (fun e => isTerminal e)).length = 1

theorem streamOk_intro {pre : List Ev} {t : Ev} (ht : isTerminal t = true)
    (hpre : ∀ e ∈ pre, isTerminal e = false) : streamOk (pre ++ [t]) := by
  refine ⟨⟨pre, t, rfl, ht, hpre⟩, ?_⟩
  rw [List.filter_append]
  have hnil : pre.filter (fun e => isTerminal e) = [] := by
    rw [List.filter_eq_nil_iff]
    intro e he
    simp [hpre e he]
  simp [hnil, ht]

theorem lineEvents_nonterminal (isJson prog : String → Bool) (line : String) :
    ∀ e ∈ lineEvents isJson prog line, isTerminal e = false := by
  intro e he
  unfold lineEvents at he
  by_cases h1 : line = ""
  · simp [h1] at he
  · by_cases h2 : isJson line = true
    · simp [h1, h2] at he
    · by_cases h3 : prog line = true
      · simp [h1, h2, h3] at he
        rcases he with rfl | rfl <;> rfl
      · simp [h1, h2, h3] at he
        subst he; rfl

theorem loopEvents_nonterminal (isJson prog : String → Bool) (lines : List String) :
    ∀ e ∈ (lines.map (lineEvents isJson prog)).flatten, isTerminal e = false := by
  intro e he
  rw [List.mem_flatten] at he
  obtain ⟨l, hl, hel⟩ := he
  rw [List.mem_map] at hl
  obtain ⟨line, _, rfl⟩ := hl
  exact lineEvents_nonterminal isJson prog line e hel

theorem iter_ytdlp_events_split (isJson prog : String → Bool) (lines : List String)
    (rc : Int) (stored : List Track) :
    ∃ t, isTerminal t = true ∧
      iter_ytdlp_events isJson prog lines rc stored
        = (lines.map (lineEvents isJson prog)).flatten ++ [t] := by
  unfold iter_ytdlp_events
  dsimp only
  by_cases h1 : rc ≠ 0
  · rw [if_pos h1]
    exact ⟨.error ("yt-dlp failed"), rfl, rfl⟩
  · rw [if_neg h1]
    by_cases h2 : lines.filter (fun l => l ≠ "" ∧ isJson l) = []
    · rw [if_pos h2]
      exact ⟨.error ("yt-dlp did not return metadata"), rfl, rfl⟩
    · rw [if_neg h2]
      exact ⟨.complete stored, rfl, rfl⟩

/-- C8: every event sequence produced by the streaming single-item
downloaders and by the batch playlist downloader contains exactly one
terminal (`complete` or `error`) event, and it is the final event of the
sequence. -/
theorem event_stream_single_terminal :
    (∀ (isJson prog : String → Bool) (lines : List String) (rc : Int)
       (stored : List Track),
       streamOk (iter_ytdlp_events isJson prog lines rc stored)) ∧
    (∀ (isJson prog : String → Bool) (lines : List String) (rc : Int)
       (stored : List Track),
       streamOk (app_iter_ytdlp_events isJson prog lines rc stored)) ∧
    (∀ r : BatchRun, streamOk (batch_download_playlist r)) := by
  have hiter : ∀ (isJson prog : String → Bool) (lines : List String) (rc : Int)
      (stored : List Track), streamOk (iter_ytdlp_events isJson prog lines rc stored) := by
    intro isJson prog lines rc stored
    obtain ⟨t, ht, heq⟩ := iter_ytdlp_events_split isJson prog lines rc stored
    rw [heq]
    exact streamOk_intro ht (loopEvents_nonterminal isJson prog lines)
  refine ⟨hiter, ?_, ?_⟩
  · intro isJson prog lines rc stored
    obtain ⟨t, ht, heq⟩ := iter_ytdlp_events_split isJson prog lines rc stored
    unfold app_iter_ytdlp_events
    rw [heq, ← List.cons_append]
    apply streamOk_intro ht
    intro e he
    rcases List.mem_cons.mp he with rfl | he'
    · rfl
    · exact loopEvents_nonterminal isJson prog lines e he'
  · intro r
    cases r with
    | fetchError msg =>
      have : batch_download_playlist (.fetchError msg) = [.start] ++ [.error msg] := rfl
      rw [this]
      exact streamOk_intro rfl (by intro e he; simp at he; subst he; rfl)
    | run entries polls outcome =>
      by_cases hent : entries = []
      · subst hent
        have : batch_download_playlist (.run [] polls outcome)
            = [.start] ++ [.error ("empty playlist")] := rfl
        rw [this]
        exact streamOk_intro rfl (by intro e he; simp at he; subst he; rfl)
      · have hpre : ∀ e ∈ (Ev.start :: Ev.playlist_info entries.length
            :: polls.map (fun _ => Ev.progress)), isTerminal e = false := by
          intro e he
          rcases List.mem_cons.mp he with rfl | he'
          · rfl
          · rcases List.mem_cons.mp he' with rfl | he''
            · rfl
            · obtain ⟨_, _, rfl⟩ := List.mem_map.mp he''
              rfl
        cases outcome with
        | ok res =>
          have : batch_download_playlist (.run entries polls (.ok res))
              = (Ev.start :: Ev.playlist_info entries.length
                  :: polls.map (fun _ => Ev.progress)) ++ [.complete res.2] := by
            simp [batch_download_playlist, hent]
          rw [this]
          exact streamOk_intro rfl hpre
        | error msg =>
          have : batch_download_playlist (.run entries polls (.error msg))
              = (Ev.start :: Ev.playlist_info entries.length
                  :: polls.map (fun _ => Ev.progress)) ++ [.error msg] := by
            simp [batch_download_playlist, hent]
          rw [this]
          exact streamOk_intro rfl hpre

/-! ## C6: URL classification rules -/

/-- The helper `ytdlp_service.is_single_video_url` (never called from the
endpoints) evaluates the claimed rules in order with the first match
winning: on a recognized video-hosting domain a direct-item (`v`) query
parameter forces Single even when a collection parameter is present,
otherwise a collection path segment or a collection-only query parameter
forces Collection; on a recognized audio-hosting domain the result is
Collection exactly for paths with a `/sets/` segment; any unrecognized
domain is Single.  Concretely: the short-link form is Single, an
audio-domain `/sets/` URL is Collection, and an unrecognized-domain URL is
Single. -/
theorem url_classification_rules :
    (∀ u : String,
      (containsSub (("youtube.com").data) (pyUrlparse u.data).netloc = true ∨
       containsSub (("youtu.be").data) (pyUrlparse u.data).netloc = true) →
      qsHasKey (("v").data) (pyUrlparse u.data).query = true →
      is_single_video_url u = true) ∧
    (∀ u : String,
      (containsSub (("youtube.com").data) (pyUrlparse u.data).netloc = true ∨
       containsSub (("youtu.be").data) (pyUrlparse u.data).netloc = true) →
      qsHasKey (("v").data) (pyUrlparse u.data).query = false →
      (containsSub (("/playlist").data) (pyUrlparse u.data).path = true ∨
       qsHasKey (("list").data) (pyUrlparse u.data).query = true) →
      is_single_video_url u = false) ∧
    (∀ u : String,
      ¬ (containsSub (("youtube.com").data) (pyUrlparse u.data).netloc = true ∨
         containsSub (("youtu.be").data) (pyUrlparse u.data).netloc = true) →
      containsSub (("soundcloud.com").data) (pyUrlparse u.data).netloc = true →
      (is_single_video_url u = true ↔
        containsSub (("/sets/").data) (pyUrlparse u.data).path = false)) ∧
    (∀ u : String,
      ¬ (containsSub (("youtube.com").data) (pyUrlparse u.data).netloc = true ∨
         containsSub (("youtu.be").data) (pyUrlparse u.data).netloc = true) →
      containsSub (("soundcloud.com").data) (pyUrlparse u.data).netloc = false →
      is_single_video_url u = true) ∧
    is_single_video_url ("https://youtu.be/abc123") = true ∧
    is_single_video_url ("https://soundcloud.com/user/sets/mix") = false ∧
    is_single_video_url ("https://example.org/track/9") = true := by
  refine ⟨?_, ?_, ?_, ?_, ?_, ?_, ?_⟩
  · intro u hv hq
    unfold is_single_video_url
    rw [if_pos hv, if_pos hq]
  · intro u hv hq hc
    unfold is_single_video_url
    rw [if_pos hv, if_neg (by simp [hq]), if_pos hc]
  · intro u hv hsc
    unfold is_single_video_url
    rw [if_neg hv, if_pos hsc]
    cases hsets : containsSub (("/sets/").data) (pyUrlparse u.data).path <;>
      simp [hsets]
  · intro u hv hsc
    unfold is_single_video_url
    rw [if_neg hv, if_neg (by simp [hsc])]
  · rfl
  · rfl
  · rfl

theorem url_classification_rules_witness :
    is_single_video_url ("https://www.youtube.com/watch?v=abc&list=PL1") = true ∧
    is_single_video_url ("https://www.youtube.com/playlist?list=PL1") = false ∧
    (is_single_video_url ("https://soundcloud.com/artist/sets/mymix") = true ↔
      containsSub (("/sets/").data)
        (pyUrlparse ("https://soundcloud.com/artist/sets/mymix").data).path = false) ∧
    is_single_video_url ("https://example.org/track/9") = true := by
  refine ⟨?_, ?_, ?_, ?_⟩
  · exact url_classification_rules.1 ("https://www.youtube.com/watch?v=abc&list=PL1")
      (Or.inl (by rfl)) (by rfl)
  · exact url_classification_rules.2.1 ("https://www.youtube.com/playlist?list=PL1")
      (Or.inl (by rfl)) (by rfl) (Or.inl (by rfl))
  · exact url_classification_rules.2.2.1 ("https://soundcloud.com/artist/sets/mymix")
      (by decide) (by rfl)
  · exact url_classification_rules.2.2.2.1 ("https://example.org/track/9")
      (by decide) (by rfl)

/-- C6 (amended): the claimed rules are exactly those of the uncalled
helper `is_single_video_url`, but the batch-import endpoint classifies with
an inline copy that starts from Collection and can only choose Single
inside the YouTube and SoundCloud branches.  The two agree on the explicit
rules (a `v` parameter on a video domain is Single even with a `list`
parameter alongside; a `/playlist` path or a `list` parameter is
Collection; an audio-domain URL is Collection exactly when its path
contains `/sets/`) but diverge on the defaults: the endpoint classifies
every YouTube URL without a `v` parameter and every unrecognized-domain URL
as Collection, so `https://youtu.be/abc123` and `https://example.org/track/9`
take the Collection path there. -/
theorem url_classification_amended :
    ((∀ u : String,
      (containsSub (("youtube.com").data) (pyUrlparse u.data).netloc = true ∨
       containsSub (("youtu.be").data) (pyUrlparse u.data).netloc = true) →
      qsHasKey (("v").data) (pyUrlparse u.data).query = true →
      is_single_video_url u = true) ∧
    (∀ u : String,
      (containsSub (("youtube.com").data) (pyUrlparse u.data).netloc = true ∨
       containsSub (("youtu.be").data) (pyUrlparse u.data).netloc = true) →
      qsHasKey (("v").data) (pyUrlparse u.data).query = false →
      (containsSub (("/playlist").data) (pyUrlparse u.data).path = true ∨
       qsHasKey (("list").data) (pyUrlparse u.data).query = true) →
      is_single_video_url u = false) ∧
    (∀ u : String,
      ¬ (containsSub (("youtube.com").data) (pyUrlparse u.data).netloc = true ∨
         containsSub (("youtu.be").data) (pyUrlparse u.data).netloc = true) →
      containsSub (("soundcloud.com").data) (pyUrlparse u.data).netloc = true →
      (is_single_video_url u = true ↔
        containsSub (("/sets/").data) (pyUrlparse u.data).path = false)) ∧
    (∀ u : String,
      ¬ (containsSub (("youtube.com").data) (pyUrlparse u.data).netloc = true ∨
         containsSub (("youtu.be").data) (pyUrlparse u.data).netloc = true) →
      containsSub (("soundcloud.com").data) (pyUrlparse u.data).netloc = false →
      is_single_video_url u = true) ∧
    is_single_video_url ("https://youtu.be/abc123") = true ∧
    is_single_video_url ("https://soundcloud.com/user/sets/mix") = false ∧
    is_single_video_url ("https://example.org/track/9") = true) ∧
    ((∀ u : String,
      (containsSub (("youtube.com").data) (pyUrlparse u.data).netloc = true ∨
       containsSub (("youtu.be").data) (pyUrlparse u.data).netloc = true) →
      qsHasKey (("v").data) (pyUrlparse u.data).query = true →
      import_batch_is_single u = true) ∧
    (∀ u : String,
      (containsSub (("youtube.com").data) (pyUrlparse u.data).netloc = true ∨
       containsSub (("youtu.be").data) (pyUrlparse u.data).netloc = true) →
      qsHasKey (("v").data) (pyUrlparse u.data).query = false →
      import_batch_is_single u = false) ∧
    (∀ u : String,
      ¬ (containsSub (("youtube.com").data) (pyUrlparse u.data).netloc = true ∨
         containsSub (("youtu.be").data) (pyUrlparse u.data).netloc = true) →
      containsSub (("soundcloud.com").data) (pyUrlparse u.data).netloc = true →
      (import_batch_is_single u = true ↔
        containsSub (("/sets/").data) (pyUrlparse u.data).path = false)) ∧
    (∀ u : String,
      ¬ (containsSub (("youtube.com").data) (pyUrlparse u.data).netloc = true ∨
         containsSub (("youtu.be").data) (pyUrlparse u.data).netloc = true) →
      containsSub (("soundcloud.com").data) (pyUrlparse u.data).netloc = false →
      import_batch_is_single u = false) ∧
    import_batch_is_single ("https://www.youtube.com/watch?v=abc&list=PL1") = true ∧
    import_batch_is_single ("https://youtu.be/abc123") = false ∧
    import_batch_is_single ("https://soundcloud.com/user/sets/mix") = false ∧
    import_batch_is_single ("https://example.org/track/9") = false) := by
  refine ⟨url_classification_rules, ?_, ?_, ?_, ?_, rfl, rfl, rfl, rfl⟩
  · intro u hv hq
    unfold import_batch_is_single
    rw [if_pos hv, if_pos hq]
  · intro u hv hq
    unfold import_batch_is_single
    rw [if_pos hv, if_neg (by simp [hq])]
    exact ite_self false
  · intro u hv hsc
    unfold import_batch_is_single
    rw [if_neg hv, if_pos hsc]
    cases hsets : containsSub (("/sets/").data) (pyUrlparse u.data).path <;>
      simp [hsets]
  · intro u hv hsc
    unfold import_batch_is_single
    rw [if_neg hv, if_neg (by simp [hsc])]

theorem url_classification_amended_witness :
    is_single_video_url ("https://www.youtube.com/watch?v=abc&list=PL1") = true ∧
    is_single_video_url ("https://example.org/track/9") = true ∧
    import_batch_is_single ("https://www.youtube.com/watch?v=abc&list=PL1") = true ∧
    import_batch_is_single ("https://www.youtube.com/playlist?list=PL1") = false ∧
    (import_batch_is_single ("https://soundcloud.com/artist/sets/mymix") = true ↔
      containsSub (("/sets/").data)
        (pyUrlparse ("https://soundcloud.com/artist/sets/mymix").data).path = false) ∧
    import_batch_is_single ("https://example.org/track/9") = false := by
  refine ⟨?_, ?_, ?_, ?_, ?_, ?_⟩
  · exact url_classification_amended.1.1 ("https://www.youtube.com/watch?v=abc&list=PL1")
      (Or.inl (by rfl)) (by rfl)
  · exact url_classification_amended.1.2.2.2.1 ("https://example.org/track/9")
      (by decide) (by rfl)
  · exact url_classification_amended.2.1 ("https://www.youtube.com/watch?v=abc&list=PL1")
      (Or.inl (by rfl)) (by rfl)
  · exact url_classification_amended.2.2.1 ("https://www.youtube.com/playlist?list=PL1")
      (Or.inl (by rfl)) (by rfl)
  · exact url_classification_amended.2.2.2.1 ("https://soundcloud.com/artist/sets/mymix")
      (by decide) (by rfl)
  · exact url_classification_amended.2.2.2.2.1 ("https://example.org/track/9")
      (by decide) (by rfl)

/-- C6 counterexample: on the claim's own scenario inputs the classifier
that is actually wired to the batch-import endpoint chooses Collection
where the claim requires Single: both the short link
`https://youtu.be/abc123` and the unrecognized-domain URL
`https://example.org/track/9` classify as Collection, even though the
uncalled helper `is_single_video_url` classifies both as Single. -/
theorem url_classification_counterexample :
    import_batch_is_single ("https://youtu.be/abc123") = false ∧
    import_batch_is_single ("https://example.org/track/9") = false ∧
    is_single_video_url ("https://youtu.be/abc123") = true ∧
    is_single_video_url ("https://example.org/track/9") = true :=
  ⟨rfl, rfl, rfl, rfl⟩

/-! ## C5 and C9: counterexamples to the normalization claims -/

/-- C5 counterexample: `normalize` is not idempotent.  The short-link form
with an ampersand in its path segment rebuilds a watch URL whose query
re-parses differently on the second pass. -/
theorem normalize_not_idempotent_counterexample :
    normalize_source_url (normalize_source_url (some ("https://youtu.be/a&b")))
      ≠ normalize_source_url (some ("https://youtu.be/a&b")) ∧
    normalize_source_url (some ("https://youtu.be/a&b"))
      = some ("https://www.youtube.com/watch?v=a&b") ∧
    normalize_source_url (normalize_source_url (some ("https://youtu.be/a&b")))
      = some ("https://www.youtube.com/watch?v=a") := by
  refine ⟨by decide, by rfl, by rfl⟩

/-- C9 counterexample: a fragment-free absolute URL on an unrecognized
domain is still changed by `normalize` (its empty query marker is dropped),
so normalization does not leave everything but the fragment unchanged. -/
theorem normalize_non_provider_counterexample :
    (("https://example.org/a?").data.contains '#') = false ∧
    recognizedVideoNetloc
      (lowerChars (pyUrlparse ("https://example.org/a?").data).netloc) = false ∧
    normalize_source_url (some ("https://example.org/a?"))
      ≠ some ("https://example.org/a?") ∧
    normalize_source_url (some ("https://example.org/a?"))
      = some ("https://example.org/a") := by
  refine ⟨rfl, rfl, by decide, by rfl⟩

/-! ## Generic list and character lemmas for the normalization proofs -/

theorem takeWhile_append_of_all {p : Char → Bool} {xs : Chars} (ys : Chars)
    (h : ∀ x ∈ xs, p x = true) : (xs ++ ys).takeWhile p = xs ++ ys.takeWhile p := by
  induction xs with
  | nil => simp
  | cons x rest ih =>
    simp [List.takeWhile_cons, h x (by simp), ih (fun y hy => h y (by simp [hy]))]

theorem dropWhile_append_of_all {p : Char → Bool} {xs : Chars} (ys : Chars)
    (h : ∀ x ∈ xs, p x = true) : (xs ++ ys).dropWhile p = ys.dropWhile p := by
  induction xs with
  | nil => simp
  | cons x rest ih =>
    simp [List.dropWhile_cons, h x (by simp), ih (fun y hy => h y (by simp [hy]))]

theorem takeWhile_all_eq_self {p : Char → Bool} {xs : Chars}
    (h : ∀ x ∈ xs, p x = true) : xs.takeWhile p = xs := by
  have := @takeWhile_append_of_all p xs [] h
  simpa using this

theorem dropWhile_all_eq_nil {p : Char → Bool} {xs : Chars}
    (h : ∀ x ∈ xs, p x = true) : xs.dropWhile p = [] := by
  have := @dropWhile_append_of_all p xs [] h
  simpa using this

theorem takeWhile_append_break {p : Char → Bool} {xs : Chars} {y : Char} (ys : Chars)
    (hy : p y = false) : (xs ++ y :: ys).takeWhile p = xs.takeWhile p := by
  induction xs with
  | nil => simp [List.takeWhile_cons, hy]
  | cons x rest ih =>
    by_cases hx : p x = true
    · simp [List.takeWhile_cons, hx, ih]
    · simp only [Bool.not_eq_true] at hx
      simp [List.takeWhile_cons, hx]

theorem dropWhile_append_break {p : Char → Bool} {xs : Chars} {y : Char} (ys : Chars)
    (hy : p y = false) : (xs ++ y :: ys).dropWhile p = xs.dropWhile p ++ y :: ys := by
  induction xs with
  | nil => simp [List.dropWhile_cons, hy]
  | cons x rest ih =>
    by_cases hx : p x = true
    · simp [List.dropWhile_cons, hx, ih]
    · simp only [Bool.not_eq_true] at hx
      simp [List.dropWhile_cons, hx]

theorem mem_takeWhile_pred {p : Char → Bool} {l : Chars} {a : Char}
    (h : a ∈ l.takeWhile p) : p a = true := by
  induction l with
  | nil => simp at h
  | cons x rest ih =>
    rw [List.takeWhile_cons] at h
    by_cases hx : p x = true
    · rw [if_pos hx] at h
      rcases List.mem_cons.mp h with rfl | h'
      · exact hx
      · exact ih h'
    · rw [if_neg hx] at h
      simp at h

theorem contains_false_iff (l : Chars) (c : Char) : l.contains c = false ↔ ¬ c ∈ l := by
  have hc : l.contains c = l.elem c := rfl
  rw [hc]
  cases h : l.elem c with
  | true =>
    simp only [Bool.true_eq_false, false_iff, not_not]
    exact List.elem_iff.mp h
  | false =>
    simp only [true_iff]
    intro hmem
    have := List.elem_iff.mpr hmem
    rw [h] at this
    exact Bool.false_eq_true.mp this

theorem contains_append_cons (xs ys : Chars) (c : Char) :
    (xs ++ c :: ys).contains c = true :=
  List.elem_iff.mpr (by simp)

/-! Character-class facts. -/

theorem char_ofNat_toNat_small {n : Nat} (h : n < 55296) : (Char.ofNat n).toNat = n := by
  have hv : n.isValidChar := Or.inl h
  simp only [Char.ofNat, hv, dif_pos]
  simp [Char.ofNatAux, Char.toNat, UInt32.toNat, BitVec.toNat_ofNatLt]

theorem char_isUpper_iff (c : Char) : c.isUpper = true ↔ (65 ≤ c.toNat ∧ c.toNat ≤ 90) := by
  simp [Char.isUpper, Char.toNat, UInt32.le_def, BitVec.le_def, UInt32.toNat]

theorem char_isLower_iff (c : Char) : c.isLower = true ↔ (97 ≤ c.toNat ∧ c.toNat ≤ 122) := by
  simp [Char.isLower, Char.toNat, UInt32.le_def, BitVec.le_def, UInt32.toNat]

theorem char_isDigit_iff (c : Char) : c.isDigit = true ↔ (48 ≤ c.toNat ∧ c.toNat ≤ 57) := by
  simp [Char.isDigit, Char.toNat, UInt32.le_def, BitVec.le_def, UInt32.toNat]

theorem char_toLower_toLower (c : Char) : c.toLower.toLower = c.toLower := by
  unfold Char.toLower
  by_cases h : c.toNat ≥ 65 ∧ c.toNat ≤ 90
  · simp only [if_pos h]
    have ht : (Char.ofNat (c.toNat + 32)).toNat = c.toNat + 32 :=
      char_ofNat_toNat_small (by omega)
    rw [if_neg (by rw [ht]; omega)]
  · simp only [if_neg h]

theorem lowerChars_idem (l : Chars) : lowerChars (lowerChars l) = lowerChars l := by
  unfold lowerChars
  rw [List.map_map]
  exact List.map_congr_left (fun c _ => char_toLower_toLower c)

theorem char_toLower_isAlpha {c : Char} (h : c.isAlpha = true) :
    c.toLower.isAlpha = true := by
  unfold Char.toLower
  by_cases hu : c.toNat ≥ 65 ∧ c.toNat ≤ 90
  · simp only [if_pos hu]
    have ht : (Char.ofNat (c.toNat + 32)).toNat = c.toNat + 32 :=
      char_ofNat_toNat_small (by omega)
    unfold Char.isAlpha
    rw [Bool.or_eq_true, char_isLower_iff, ht]
    exact Or.inr (by omega)
  · simp only [if_neg hu]
    exact h

theorem char_toLower_isSchemeChar {c : Char} (h : isSchemeChar c = true) :
    isSchemeChar c.toLower = true := by
  unfold Char.toLower
  by_cases hu : c.toNat ≥ 65 ∧ c.toNat ≤ 90
  · rw [if_pos hu]
    have ht : (Char.ofNat (c.toNat + 32)).toNat = c.toNat + 32 :=
      char_ofNat_toNat_small (by omega)
    have hlow : (Char.ofNat (c.toNat + 32)).isLower = true :=
      (char_isLower_iff _).mpr (by rw [ht]; omega)
    simp [isSchemeChar, Char.isAlpha, hlow]
  · rw [if_neg hu]
    exact h

theorem char_toLower_not_colon {c : Char} (h : c ≠ ':') : c.toLower ≠ ':' := by
  unfold Char.toLower
  by_cases hu : c.toNat ≥ 65 ∧ c.toNat ≤ 90
  · rw [if_pos hu]
    intro he
    have ht : (Char.ofNat (c.toNat + 32)).toNat = c.toNat + 32 :=
      char_ofNat_toNat_small (by omega)
    rw [he] at ht
    have h58 : (':' : Char).toNat = 58 := rfl
    omega
  · rw [if_neg hu]
    exact h

/-! Lemmas about the params split. -/

theorem headPart_append_lastSeg (l : Chars) : headPart l ++ lastSeg l = l := by
  unfold headPart lastSeg
  rw [← List.reverse_append, List.takeWhile_append_dropWhile, List.reverse_reverse]

theorem lastSeg_no_slash (l : Chars) : ∀ c ∈ lastSeg l, c ≠ '/' := by
  intro c hc
  unfold lastSeg at hc
  rw [List.mem_reverse] at hc
  have := mem_takeWhile_pred hc
  simpa using this

theorem lastSeg_append_slash {t w : Chars} (hw : ∀ c ∈ w, c ≠ '/') :
    lastSeg (t ++ '/' :: w) = w ∧ headPart (t ++ '/' :: w) = t ++ ['/'] := by
  have hrev : (t ++ '/' :: w).reverse = w.reverse ++ '/' :: t.reverse := by
    rw [List.reverse_append, List.reverse_cons, List.append_assoc,
      List.singleton_append]
  have hall : ∀ c ∈ w.reverse, (fun c => decide (c ≠ '/')) c = true := by
    intro c hc
    exact decide_eq_true (hw c (List.mem_reverse.mp hc))
  constructor
  · unfold lastSeg
    rw [hrev, takeWhile_append_break _ (by simp), takeWhile_all_eq_self hall,
      List.reverse_reverse]
  · unfold headPart
    rw [hrev, dropWhile_append_break _ (by simp), dropWhile_all_eq_nil hall]
    simp

theorem slash_decomp {l : Chars} (h : '/' ∈ l) :
    ∃ t, l = t ++ '/' :: lastSeg l ∧ headPart l = t ++ ['/'] := by
  have hd := headPart_append_lastSeg l
  have hne : l.reverse.dropWhile (fun c => decide (c ≠ '/')) ≠ [] := by
    intro he
    have : l.reverse.takeWhile (fun c => decide (c ≠ '/')) = l.reverse := by
      have := List.takeWhile_append_dropWhile
        (p := fun c => decide (c ≠ '/')) (l := l.reverse)
      rw [he] at this
      simpa using this
    have hmem : '/' ∈ l.reverse.takeWhile (fun c => decide (c ≠ '/')) := by
      rw [this]
      exact List.mem_reverse.mpr h
    have := mem_takeWhile_pred hmem
    simp at this
  cases hdw : l.reverse.dropWhile (fun c => decide (c ≠ '/')) with
  | nil => exact absurd hdw hne
  | cons y rest =>
    have hy : (fun c => decide (c ≠ '/')) y = false := by
      have := List.head?_dropWhile_not (fun c => decide (c ≠ '/')) l.reverse
      rw [hdw] at this
      simpa using this
    have hy' : y = '/' := by simpa using hy
    subst hy'
    have hhp : headPart l = rest.reverse ++ ['/'] := by
      unfold headPart
      rw [hdw, List.reverse_cons]
    refine ⟨rest.reverse, ?_, hhp⟩
    conv_lhs => rw [← hd]
    rw [hhp, List.append_assoc, List.singleton_append]

/-- `pathParams` evaluated on a path decomposed around its last slash. -/
theorem pathParams_decomp (t seg : Chars) (hseg : ∀ c ∈ seg, c ≠ '/') :
    pathParams (t ++ '/' :: seg)
      = if (seg.contains ';') = true then
          (t ++ '/' :: seg.takeWhile (fun c => c ≠ ';'),
           (seg.dropWhile (fun c => c ≠ ';')).drop 1)
        else (t ++ '/' :: seg, []) := by
  obtain ⟨hls, hhp⟩ := lastSeg_append_slash (t := t) (w := seg) hseg
  have hslash : ((t ++ '/' :: seg).contains '/') = true :=
    List.elem_iff.mpr (by simp)
  by_cases hss : (seg.contains ';') = true
  · have hsX : ((t ++ '/' :: seg).contains ';') = true := by
      apply List.elem_iff.mpr
      have : ';' ∈ seg := List.elem_iff.mp hss
      simp [this]
    unfold pathParams splitParamsPart
    rw [if_pos hsX, if_pos hslash, hls, if_pos hss, hhp, if_pos hss,
      List.append_assoc, List.singleton_append]
  · by_cases hsX : ((t ++ '/' :: seg).contains ';') = true
    · unfold pathParams splitParamsPart
      rw [if_pos hsX, if_pos hslash, hls, if_neg hss, if_neg hss]
    · unfold pathParams
      rw [if_neg hsX, if_neg hss]

theorem pathParams_cons_slash (Y : Chars) :
    pathParams ('/' :: Y) = ('/' :: (pathParams Y).1, (pathParams Y).2) := by
  by_cases hsl : '/' ∈ Y
  · obtain ⟨t, hY, -⟩ := slash_decomp hsl
    have hseg := lastSeg_no_slash Y
    have h1 : pathParams ('/' :: Y)
        = pathParams (('/' :: t) ++ '/' :: lastSeg Y) := by
      conv_lhs => rw [hY]
      rw [List.cons_append]
    have h2 : pathParams Y = pathParams (t ++ '/' :: lastSeg Y) := by
      conv_lhs => rw [hY]
    rw [h1, h2, pathParams_decomp _ _ hseg, pathParams_decomp _ _ hseg]
    by_cases hss : ((lastSeg Y).contains ';') = true
    · rw [if_pos hss, if_pos hss]
      simp
    · rw [if_neg hss, if_neg hss]
      simp
  · have hseg : ∀ c ∈ Y, c ≠ '/' := fun c hc he => hsl (he ▸ hc)
    have h1 : pathParams ('/' :: Y) = pathParams ([] ++ '/' :: Y) := rfl
    rw [h1, pathParams_decomp _ _ hseg]
    unfold pathParams
    by_cases hss : (Y.contains ';') = true
    · rw [if_pos hss, if_pos hss]
      have hcf : (Y.contains '/') = false := contains_false_iff .. |>.mpr hsl
      unfold splitParamsPart splitFirst
      rw [if_neg (by rw [hcf]; simp)]
      simp
    · rw [if_neg hss, if_neg hss]
      simp

theorem joinParams_cons (c : Char) (a b : Chars) :
    joinParams (c :: a) b = c :: joinParams a b := by
  unfold joinParams
  by_cases hb : b = [] <;> simp [hb]

theorem dropWhile_mem_cons {c : Char} {l : Chars} (h : c ∈ l) :
    l.dropWhile (fun x => x ≠ c) = c :: (l.dropWhile (fun x => x ≠ c)).drop 1 := by
  have hne : l.dropWhile (fun x => decide (x ≠ c)) ≠ [] := by
    intro he
    have htw : l.takeWhile (fun x => decide (x ≠ c)) = l := by
      have := List.takeWhile_append_dropWhile (p := fun x => decide (x ≠ c)) (l := l)
      rw [he] at this
      simpa using this
    have hmem : c ∈ l.takeWhile (fun x => decide (x ≠ c)) := by rw [htw]; exact h
    have := mem_takeWhile_pred hmem
    simp at this
  cases hdw : l.dropWhile (fun x => decide (x ≠ c)) with
  | nil => exact absurd hdw hne
  | cons y rest =>
    have hy : (fun x => decide (x ≠ c)) y = false := by
      have := List.head?_dropWhile_not (fun x => decide (x ≠ c)) l
      rw [hdw] at this
      simpa using this
    have hy' : y = c := by simpa using hy
    subst hy'
    simp

theorem head?_append_slash (t w w' : Chars) :
    (t ++ '/' :: w).head? = (t ++ '/' :: w').head? := by
  cases t <;> simp

/-- Master facts about the params split and rejoin: rejoining is stable
under re-splitting, introduces at most a `;`, preserves emptiness and a
leading slash. -/
theorem pathParams_facts (X : Chars) :
    pathParams (joinParams (pathParams X).1 (pathParams X).2) = pathParams X ∧
    (∀ c ∈ joinParams (pathParams X).1 (pathParams X).2, c ∈ X ∨ c = ';') ∧
    (X.head? = some '/' → (joinParams (pathParams X).1 (pathParams X).2).head? = some '/') ∧
    (X = [] → joinParams (pathParams X).1 (pathParams X).2 = []) ∧
    (joinParams (pathParams X).1 (pathParams X).2 = X ∨
      joinParams (pathParams X).1 (pathParams X).2 ++ [';'] = X) := by
  by_cases hsemi : (X.contains ';') = true
  · have hsemi' : ';' ∈ X := List.elem_iff.mp hsemi
    by_cases hsl : '/' ∈ X
    · obtain ⟨t, hX, -⟩ := slash_decomp hsl
      have hseg := lastSeg_no_slash X
      have hpp : pathParams X
          = if ((lastSeg X).contains ';') = true then
              (t ++ '/' :: (lastSeg X).takeWhile (fun c => c ≠ ';'),
               ((lastSeg X).dropWhile (fun c => c ≠ ';')).drop 1)
            else (X, []) := by
        conv_lhs => rw [hX]
        rw [pathParams_decomp t _ hseg]
        by_cases hss : ((lastSeg X).contains ';') = true
        · rw [if_pos hss, if_pos hss]
        · rw [if_neg hss, if_neg hss, ← hX]
      by_cases hss : ((lastSeg X).contains ';') = true
      · have hss' : ';' ∈ lastSeg X := List.elem_iff.mp hss
        have hsegsplit : (lastSeg X).takeWhile (fun c => c ≠ ';') ++ ';' ::
            ((lastSeg X).dropWhile (fun c => c ≠ ';')).drop 1 = lastSeg X := by
          rw [← dropWhile_mem_cons hss']
          exact List.takeWhile_append_dropWhile
            (p := fun c => decide (c ≠ ';')) (l := lastSeg X)
        rw [hpp, if_pos hss]
        have htk_nosemi : ∀ c ∈ (lastSeg X).takeWhile (fun c => c ≠ ';'), c ≠ ';' := by
          intro c hc
          have := mem_takeWhile_pred hc
          simpa using this
        have htk_noslash : ∀ c ∈ (lastSeg X).takeWhile (fun c => c ≠ ';'), c ≠ '/' := by
          intro c hc
          exact hseg c ((List.takeWhile_sublist _).mem hc)
        by_cases hr : ((lastSeg X).dropWhile (fun c => c ≠ ';')).drop 1 = ([] : Chars)
        · rw [hr]
          have hjoin : joinParams
              (t ++ '/' :: (lastSeg X).takeWhile (fun c => c ≠ ';')) [] =
              t ++ '/' :: (lastSeg X).takeWhile (fun c => c ≠ ';') := by
            unfold joinParams
            simp
          rw [hjoin]
          refine ⟨?_, ?_, ?_, ?_, ?_⟩
          · rw [pathParams_decomp t _ htk_noslash,
              if_neg (fun hc => htk_nosemi ';' (List.elem_iff.mp hc) rfl)]
          · intro c hc
            rcases List.mem_append.mp hc with hc | hc
            · exact .inl (by rw [hX]; simp [hc])
            · rcases List.mem_cons.mp hc with rfl | hc
              · exact .inl (by rw [hX]; simp)
              · refine .inl ?_
                rw [hX]
                have : c ∈ lastSeg X := (List.takeWhile_sublist _).mem hc
                simp [this]
          · intro hh
            rw [head?_append_slash t _ (lastSeg X), ← hX]
            exact hh
          · intro he
            rw [he] at hX
            exact absurd hX.symm (by simp)
          · refine .inr ?_
            have h1 : (lastSeg X).takeWhile (fun c => c ≠ ';') ++ [';'] = lastSeg X := by
              have h2 := hsegsplit
              rw [hr] at h2
              exact h2
            calc (t ++ '/' :: (lastSeg X).takeWhile (fun c => c ≠ ';')) ++ [';']
                = t ++ '/' :: ((lastSeg X).takeWhile (fun c => c ≠ ';') ++ [';']) := by
                  simp
              _ = t ++ '/' :: lastSeg X := by rw [h1]
              _ = X := hX.symm
        · have hjoin : joinParams
              (t ++ '/' :: (lastSeg X).takeWhile (fun c => c ≠ ';'))
              (((lastSeg X).dropWhile (fun c => c ≠ ';')).drop 1)
              = t ++ '/' :: ((lastSeg X).takeWhile (fun c => c ≠ ';') ++ ';' ::
                  ((lastSeg X).dropWhile (fun c => c ≠ ';')).drop 1) := by
            unfold joinParams
            rw [if_pos hr]
            simp
          rw [hjoin, hsegsplit, ← hX]
          refine ⟨?_, fun c hc => .inl hc, fun hh => hh, ?_, .inl rfl⟩
          · rw [hpp, if_pos hss]
          · intro he
            rw [he] at hX
            exact absurd hX.symm (by simp)
      · rw [hpp, if_neg hss]
        have hjoin : joinParams X [] = X := by unfold joinParams; simp
        rw [hjoin]
        refine ⟨?_, fun c hc => .inl hc, fun hh => hh, fun he => he, .inl rfl⟩
        rw [hpp, if_neg hss]
    · have hpp : pathParams X
          = (X.takeWhile (fun c => c ≠ ';'),
             (X.dropWhile (fun c => c ≠ ';')).drop 1) := by
        unfold pathParams splitParamsPart splitFirst
        rw [if_pos hsemi,
          if_neg (by rw [(contains_false_iff X '/').mpr hsl]; simp)]
      have hXsplit : X.takeWhile (fun c => c ≠ ';') ++ ';' ::
          (X.dropWhile (fun c => c ≠ ';')).drop 1 = X := by
        rw [← dropWhile_mem_cons hsemi']
        exact List.takeWhile_append_dropWhile
          (p := fun c => decide (c ≠ ';')) (l := X)
      rw [hpp]
      have htk_nosemi : ∀ c ∈ X.takeWhile (fun c => c ≠ ';'), c ≠ ';' := by
        intro c hc
        have := mem_takeWhile_pred hc
        simpa using this
      by_cases hr : (X.dropWhile (fun c => c ≠ ';')).drop 1 = ([] : Chars)
      · rw [hr]
        have hjoin : joinParams (X.takeWhile (fun c => c ≠ ';')) [] =
            X.takeWhile (fun c => c ≠ ';') := by
          unfold joinParams
          simp
        rw [hjoin]
        refine ⟨?_, ?_, ?_, ?_, ?_⟩
        · have htksemi : ((X.takeWhile (fun c => c ≠ ';')).contains ';') = false := by
            rw [contains_false_iff]
            intro hc
            exact htk_nosemi ';' hc rfl
          unfold pathParams
          rw [if_neg (by rw [htksemi]; simp)]
        · intro c hc
          exact .inl ((List.takeWhile_sublist _).mem hc)
        · intro hh
          exfalso
          apply hsl
          cases hXc : X with
          | nil => rw [hXc] at hh; simp at hh
          | cons y ys =>
            rw [hXc] at hh
            simp at hh
            simp [hh]
        · intro he
          rw [he]
          simp
        · refine .inr ?_
          have h2 := hXsplit
          rw [hr] at h2
          exact h2
      · have hjoin : joinParams (X.takeWhile (fun c => c ≠ ';'))
            ((X.dropWhile (fun c => c ≠ ';')).drop 1)
            = X.takeWhile (fun c => c ≠ ';') ++ ';' ::
                (X.dropWhile (fun c => c ≠ ';')).drop 1 := by
          unfold joinParams
          rw [if_pos hr]
        rw [hjoin, hXsplit]
        exact ⟨hpp, fun c hc => .inl hc, fun hh => hh, fun he => by rw [he], .inl rfl⟩
  · have hpp : pathParams X = (X, []) := by
      unfold pathParams
      rw [if_neg hsemi]
    rw [hpp]
    have hjoin : joinParams X [] = X := by unfold joinParams; simp
    rw [hjoin]
    exact ⟨hpp, fun c hc => .inl hc, fun hh => hh, fun he => he, .inl rfl⟩

/-! Generic scanning lemmas: a failing character in the middle stops a
`takeWhile` scan regardless of what precedes it. -/

theorem takeWhile_append_mid {p : Char → Bool} {c : Char} (hc : p c = false)
    (A F : Chars) : ((A ++ c :: F).takeWhile p) = A.takeWhile p := by
  induction A with
  | nil => simp [List.takeWhile_cons, hc]
  | cons a as ih =>
    by_cases ha : p a = true
    · simp [List.takeWhile_cons, ha, ih]
    · have ha2 : p a = false := by revert ha; cases (p a) <;> simp
      simp [List.takeWhile_cons, ha2]

theorem dropWhile_append_mid {p : Char → Bool} {c : Char} (hc : p c = false)
    (A F : Chars) : ((A ++ c :: F).dropWhile p) = A.dropWhile p ++ c :: F := by
  induction A with
  | nil => simp [List.dropWhile_cons, hc]
  | cons a as ih =>
    by_cases ha : p a = true
    · simp [List.dropWhile_cons, ha, ih]
    · have ha2 : p a = false := by revert ha; cases (p a) <;> simp
      simp [List.dropWhile_cons, ha2]

theorem dropWhile_nonmem {p : Char → Bool} {l : Chars} (h : ∀ c ∈ l, p c = false) :
    l.dropWhile p = l := by
  cases l with
  | nil => rfl
  | cons a l2 =>
    rw [List.dropWhile_cons, if_neg (by rw [h a (by simp)]; simp)]

/-! Whitespace facts: tab, CR and LF are Python whitespace, so a string with
no whitespace is untouched by both `strip()` and the unsafe-byte removal of
`urlsplit`, and lowercasing cannot create whitespace. -/

theorem isPySpace_toNat_le {e : Char} (h : isPySpace e = true) : e.toNat ≤ 32 := by
  unfold isPySpace at h
  simp at h
  rcases h with rfl | rfl | rfl | rfl | rfl | rfl <;> decide

theorem removeUnsafeChars_eq_self {l : Chars} (h : ∀ c ∈ l, isPySpace c = false) :
    removeUnsafeChars l = l := by
  unfold removeUnsafeChars
  apply List.filter_eq_self.mpr
  intro c hc
  have h2 := h c hc
  unfold isPySpace at h2
  simp at h2 ⊢
  tauto

theorem pyStrip_eq_self {l : Chars} (h : ∀ c ∈ l, isPySpace c = false) :
    pyStrip l = l := by
  unfold pyStrip
  rw [dropWhile_nonmem h,
    dropWhile_nonmem (fun c hc => h c (List.mem_reverse.mp hc)),
    List.reverse_reverse]

theorem isPySpace_toLower {c : Char} (h : isPySpace c = false) :
    isPySpace c.toLower = false := by
  by_cases hu : c.toNat ≥ 65 ∧ c.toNat ≤ 90
  · cases hsp : isPySpace c.toLower with
    | false => rfl
    | true =>
      have hle := isPySpace_toNat_le hsp
      unfold Char.toLower at hle
      rw [if_pos hu, char_ofNat_toNat_small (by omega)] at hle
      omega
  · unfold Char.toLower
    rw [if_neg hu]
    exact h

theorem all_schemeChar_no_colon {l : Chars} (h : l.all isSchemeChar = true) :
    ∀ c ∈ l, c ≠ ':' := by
  intro c hc he
  have h2 := List.all_eq_true.mp h c hc
  rw [he] at h2
  exact absurd h2 (by decide)

/-! Shape facts about the parts produced by `pyUrlsplit`. -/

theorem takeWhile_head? {p : Char → Bool} {l : Chars} (h : l.takeWhile p ≠ []) :
    (l.takeWhile p).head? = l.head? := by
  cases l with
  | nil => simp at h
  | cons a l2 =>
    by_cases ha : p a = true
    · simp [List.takeWhile_cons, ha]
    · simp [List.takeWhile_cons, ha] at h

theorem splitSchemePart_of_ne {U : Chars} (h : (splitSchemePart U).1 ≠ []) :
    (U.takeWhile (fun c => c ≠ ':')).length < U.length ∧
    U.takeWhile (fun c => c ≠ ':') ≠ [] ∧
    ((U.takeWhile (fun c => c ≠ ':')).headD ' ').isAlpha = true ∧
    (U.takeWhile (fun c => c ≠ ':')).all isSchemeChar = true ∧
    splitSchemePart U = (lowerChars (U.takeWhile (fun c => c ≠ ':')),
      U.drop ((U.takeWhile (fun c => c ≠ ':')).length + 1)) := by
  by_cases hcond : (U.takeWhile (fun c => c ≠ ':')).length < U.length ∧
      U.takeWhile (fun c => c ≠ ':') ≠ [] ∧
      ((U.takeWhile (fun c => c ≠ ':')).headD ' ').isAlpha = true ∧
      (U.takeWhile (fun c => c ≠ ':')).all isSchemeChar = true
  · refine ⟨hcond.1, hcond.2.1, hcond.2.2.1, hcond.2.2.2, ?_⟩
    unfold splitSchemePart
    rw [if_pos hcond]
  · exfalso
    apply h
    unfold splitSchemePart
    rw [if_neg hcond]

theorem splitSchemePart_snd_drop (U : Chars) :
    ∃ k, (splitSchemePart U).2 = U.drop k := by
  by_cases hcond : (U.takeWhile (fun c => c ≠ ':')).length < U.length ∧
      U.takeWhile (fun c => c ≠ ':') ≠ [] ∧
      ((U.takeWhile (fun c => c ≠ ':')).headD ' ').isAlpha = true ∧
      (U.takeWhile (fun c => c ≠ ':')).all isSchemeChar = true
  · refine ⟨(U.takeWhile (fun c => c ≠ ':')).length + 1, ?_⟩
    unfold splitSchemePart
    rw [if_pos hcond]
  · refine ⟨0, ?_⟩
    unfold splitSchemePart
    rw [if_neg hcond]
    rfl

theorem splitNetlocPart_facts (R : Chars) :
    (∀ c ∈ (splitNetlocPart R).1, isNetlocDelim c = false) ∧
    (∀ c ∈ (splitNetlocPart R).1, c ∈ R) ∧
    (∀ c ∈ (splitNetlocPart R).2, c ∈ R) ∧
    ((splitNetlocPart R).1 ≠ [] →
      (splitNetlocPart R).2 = [] ∨
        isNetlocDelim ((splitNetlocPart R).2.headD ' ') = true) := by
  unfold splitNetlocPart
  by_cases h2 : R.take 2 = ['/', '/']
  · rw [if_pos h2]
    dsimp only
    refine ⟨?_, ?_, ?_, ?_⟩
    · intro c hc
      have := mem_takeWhile_pred hc
      simpa using this
    · intro c hc
      exact List.mem_of_mem_drop ((List.takeWhile_sublist _).mem hc)
    · intro c hc
      exact List.mem_of_mem_drop ((List.dropWhile_sublist _).mem hc)
    · intro _
      cases hdw : (R.drop 2).dropWhile (fun c => ¬ isNetlocDelim c) with
      | nil => exact .inl rfl
      | cons y rest =>
        refine .inr ?_
        have hh := List.head?_dropWhile_not
          (fun c => decide (¬ isNetlocDelim c = true)) (R.drop 2)
        rw [hdw] at hh
        simp at hh
        simpa using hh
  · rw [if_neg h2]
    exact ⟨fun c hc => absurd hc (by simp), fun c hc => absurd hc (by simp),
      fun c hc => hc, fun hn => absurd rfl hn⟩

theorem splitFragmentPart_fst_facts (N : Chars) :
    (∀ c ∈ (splitFragmentPart N).1, c ≠ '#') ∧
    (∀ c ∈ (splitFragmentPart N).1, c ∈ N) ∧
    ((splitFragmentPart N).1 ≠ [] → (splitFragmentPart N).1.head? = N.head?) := by
  unfold splitFragmentPart splitFirst
  by_cases hc : N.contains '#' = true
  · rw [if_pos hc]
    refine ⟨?_, ?_, ?_⟩
    · intro c hcc
      have := mem_takeWhile_pred hcc
      simpa using this
    · intro c hcc
      exact (List.takeWhile_sublist _).mem hcc
    · exact fun h => takeWhile_head? h
  · rw [if_neg hc]
    refine ⟨?_, fun c h => h, fun _ => rfl⟩
    intro c hcc he
    subst he
    exact hc (List.elem_iff.mpr hcc)

theorem splitQueryPart_facts (M : Chars) :
    (∀ c ∈ (splitQueryPart M).1, c ≠ '?') ∧
    (∀ c ∈ (splitQueryPart M).1, c ∈ M) ∧
    (∀ c ∈ (splitQueryPart M).2, c ∈ M) ∧
    ((splitQueryPart M).1 ≠ [] → (splitQueryPart M).1.head? = M.head?) := by
  unfold splitQueryPart splitFirst
  by_cases hc : M.contains '?' = true
  · rw [if_pos hc]
    refine ⟨?_, ?_, ?_, ?_⟩
    · intro c hcc
      have := mem_takeWhile_pred hcc
      simpa using this
    · intro c hcc
      exact (List.takeWhile_sublist _).mem hcc
    · intro c hcc
      exact (List.dropWhile_sublist _).mem (List.mem_of_mem_drop hcc)
    · exact fun h => takeWhile_head? h
  · rw [if_neg hc]
    refine ⟨?_, fun c h => h, fun c hcc => absurd hcc (by simp), fun _ => rfl⟩
    intro c hcc he
    subst he
    exact hc (List.elem_iff.mpr hcc)

theorem pyUrlsplit_red (u : Chars) (hu : removeUnsafeChars u = u) :
    pyUrlsplit u =
      { scheme := (splitSchemePart u).1,
        netloc := (splitNetlocPart (splitSchemePart u).2).1,
        path := (splitQueryPart
          (splitFragmentPart (splitNetlocPart (splitSchemePart u).2).2).1).1,
        query := (splitQueryPart
          (splitFragmentPart (splitNetlocPart (splitSchemePart u).2).2).1).2,
        fragment := (splitFragmentPart (splitNetlocPart (splitSchemePart u).2).2).2 } := by
  unfold pyUrlsplit
  rw [hu]

/-- The parts produced by `pyUrlsplit` on a whitespace-free URL: the netloc
holds no delimiter, the path holds no `#` or `?`, the query holds no `#`,
a nonempty netloc forces the path to be empty or slash-headed, every part is
made of characters of the input (the scheme up to lowercasing), and a
nonempty scheme is a valid lowercase scheme. -/
theorem pyUrlsplit_shape (u : Chars) (hu : removeUnsafeChars u = u) :
    (∀ c ∈ (pyUrlsplit u).netloc, isNetlocDelim c = false) ∧
    (∀ c ∈ (pyUrlsplit u).path, c ≠ '#' ∧ c ≠ '?') ∧
    (∀ c ∈ (pyUrlsplit u).query, c ≠ '#') ∧
    ((pyUrlsplit u).netloc ≠ [] →
      (pyUrlsplit u).path = [] ∨ (pyUrlsplit u).path.headD ' ' = '/') ∧
    (∀ c ∈ (pyUrlsplit u).netloc, c ∈ u) ∧
    (∀ c ∈ (pyUrlsplit u).path, c ∈ u) ∧
    (∀ c ∈ (pyUrlsplit u).query, c ∈ u) ∧
    (∀ c ∈ (pyUrlsplit u).scheme, ∃ d ∈ u, c = d.toLower) ∧
    ((pyUrlsplit u).scheme ≠ [] →
      (pyUrlsplit u).scheme.all isSchemeChar = true ∧
      ((pyUrlsplit u).scheme.headD ' ').isAlpha = true ∧
      lowerChars (pyUrlsplit u).scheme = (pyUrlsplit u).scheme) := by
  obtain ⟨k, hk⟩ := splitSchemePart_snd_drop u
  obtain ⟨hn1, hn2, hn3, hn4⟩ := splitNetlocPart_facts (splitSchemePart u).2
  obtain ⟨hf1, hf2, hf3⟩ :=
    splitFragmentPart_fst_facts (splitNetlocPart (splitSchemePart u).2).2
  obtain ⟨hq1, hq2, hq3, hq4⟩ :=
    splitQueryPart_facts
      (splitFragmentPart (splitNetlocPart (splitSchemePart u).2).2).1
  have hmemu : ∀ c ∈ (splitSchemePart u).2, c ∈ u := by
    intro c hc
    rw [hk] at hc
    exact List.mem_of_mem_drop hc
  rw [pyUrlsplit_red u hu]
  dsimp only
  refine ⟨hn1, ?_, ?_, ?_, fun c hc => hmemu c (hn2 c hc), ?_, ?_, ?_, ?_⟩
  · intro c hc
    exact ⟨hf1 c (hq2 c hc), hq1 c hc⟩
  · intro c hc
    exact hf1 c (hq3 c hc)
  · intro hnl
    cases hpath : (splitQueryPart
        (splitFragmentPart (splitNetlocPart (splitSchemePart u).2).2).1).1 with
    | nil => exact .inl rfl
    | cons x xs =>
      refine .inr ?_
      have hph : (splitQueryPart
          (splitFragmentPart (splitNetlocPart (splitSchemePart u).2).2).1).1.head?
          = (splitFragmentPart (splitNetlocPart (splitSchemePart u).2).2).1.head? :=
        hq4 (by rw [hpath]; simp)
      rw [hpath] at hph
      have hfne : (splitFragmentPart (splitNetlocPart (splitSchemePart u).2).2).1 ≠ [] := by
        intro he
        rw [he] at hph
        simp at hph
      have hfh := hf3 hfne
      rw [← hph] at hfh
      have hnne : (splitNetlocPart (splitSchemePart u).2).2 ≠ [] := by
        intro he
        rw [he] at hfh
        simp at hfh
      rcases hn4 hnl with he | hd
      · exact absurd he hnne
      · have hx : ((splitNetlocPart (splitSchemePart u).2).2).headD ' ' = x := by
          cases hnn : (splitNetlocPart (splitSchemePart u).2).2 with
          | nil => exact absurd hnn hnne
          | cons z zs =>
            rw [hnn] at hfh
            simp at hfh
            simp [hfh]
        rw [hx] at hd
        have hxp : x ∈ (splitQueryPart
            (splitFragmentPart (splitNetlocPart (splitSchemePart u).2).2).1).1 := by
          rw [hpath]
          simp
        have hxh : x ≠ '#' := hf1 x (hq2 x hxp)
        have hxq : x ≠ '?' := hq1 x hxp
        simp
        unfold isNetlocDelim at hd
        simp [hxh, hxq] at hd
        exact hd
  · intro c hc
    exact hmemu c (hn3 c (hf2 c (hq2 c hc)))
  · intro c hc
    exact hmemu c (hn3 c (hf2 c (hq3 c hc)))
  · intro c hc
    by_cases hs : (splitSchemePart u).1 = []
    · rw [hs] at hc
      simp at hc
    · obtain ⟨-, -, -, -, heq⟩ := splitSchemePart_of_ne hs
      rw [heq] at hc
      unfold lowerChars at hc
      simp only [List.mem_map] at hc
      obtain ⟨d, hd, hlow⟩ := hc
      exact ⟨d, (List.takeWhile_sublist _).mem hd, hlow.symm⟩
  · intro hs
    obtain ⟨-, hpre_ne, hpre_alpha, hpre_all, heq⟩ := splitSchemePart_of_ne hs
    rw [heq]
    dsimp only
    refine ⟨?_, ?_, lowerChars_idem _⟩
    · apply List.all_eq_true.mpr
      intro c hc
      unfold lowerChars at hc
      simp only [List.mem_map] at hc
      obtain ⟨d, hd, hlow⟩ := hc
      rw [← hlow]
      exact char_toLower_isSchemeChar (List.all_eq_true.mp hpre_all d hd)
    · cases hpre : u.takeWhile (fun c => c ≠ ':') with
      | nil => exact absurd hpre hpre_ne
      | cons d ds =>
        rw [hpre] at hpre_alpha
        unfold lowerChars
        simp only [List.map_cons, List.headD_cons]
        exact char_toLower_isAlpha (by simpa using hpre_alpha)

/-! Computation lemmas for re-splitting a URL assembled by `pyUrlunsplit`. -/

theorem mem_joinParams {c : Char} {a b : Chars} (h : c ∈ joinParams a b) :
    c ∈ a ∨ c ∈ b ∨ c = ';' := by
  unfold joinParams at h
  split at h
  · rcases List.mem_append.mp h with h | h
    · exact .inl h
    · rcases List.mem_cons.mp h with rfl | h
      · exact .inr (.inr rfl)
      · exact .inr (.inl h)
  · exact .inl h

set_option maxHeartbeats 1000000 in
theorem mem_pyUrlunsplit {c : Char} {s : SplitParts} (h : c ∈ pyUrlunsplit s) :
    c ∈ s.scheme ∨ c ∈ s.netloc ∨ c ∈ s.path ∨ c ∈ s.query ∨ c ∈ s.fragment ∨
    c = ':' ∨ c = '/' ∨ c = '?' ∨ c = '#' := by
  unfold pyUrlunsplit at h
  dsimp only at h
  repeat' split at h
  all_goals
    first
      | (simp only [List.mem_append, List.mem_cons, List.not_mem_nil,
          or_false] at h; tauto)
      | tauto

theorem take2_append_q {A B : Chars} {q0 : Char} (hq : q0 ≠ '/')
    (h : (A ++ q0 :: B).take 2 = ['/', '/']) : A.take 2 = ['/', '/'] := by
  cases A with
  | nil =>
    cases B with
    | nil =>
      have h2 : [q0] = ['/', '/'] := h
      simp at h2
    | cons b B2 =>
      have h2 : [q0, b] = ['/', '/'] := h
      simp at h2
      exact absurd h2.1 hq
  | cons a A1 =>
    cases A1 with
    | nil =>
      have h2 : [a, q0] = ['/', '/'] := h
      simp at h2
      exact absurd h2.2 hq
    | cons b A2 =>
      have h2 : [a, b] = ['/', '/'] := h
      simp at h2
      rcases h2 with ⟨rfl, rfl⟩
      rfl

theorem splitSchemePart_scheme_colon {sch R : Chars} (hne : sch ≠ [])
    (hall : sch.all isSchemeChar = true) (hhd : (sch.headD ' ').isAlpha = true)
    (hlow : lowerChars sch = sch) :
    splitSchemePart (sch ++ ':' :: R) = (sch, R) := by
  have hnc : ∀ c ∈ sch, (fun c => decide (c ≠ ':')) c = true := by
    intro c hc
    simpa using all_schemeChar_no_colon hall c hc
  have hpre : (sch ++ ':' :: R).takeWhile (fun c => c ≠ ':') = sch := by
    rw [takeWhile_append_break _ (by simp), takeWhile_all_eq_self hnc]
  unfold splitSchemePart
  rw [hpre]
  rw [if_pos ⟨by simp, hne, hhd, hall⟩]
  have hsplit : sch ++ ':' :: R = (sch ++ [':']) ++ R := by simp
  have hlen : sch.length + 1 = (sch ++ [':']).length := by simp
  rw [hlow, hsplit, hlen, List.drop_left]

theorem splitNetloc_after_slashes {nl rest : Chars}
    (hnl : ∀ c ∈ nl, isNetlocDelim c = false)
    (hrest : rest = [] ∨ isNetlocDelim (rest.headD ' ') = true) :
    splitNetlocPart ('/' :: '/' :: (nl ++ rest)) = (nl, rest) := by
  unfold splitNetlocPart
  rw [if_pos (show List.take 2 ('/' :: '/' :: (nl ++ rest)) = ['/', '/'] from rfl)]
  dsimp only
  rw [show List.drop 2 ('/' :: '/' :: (nl ++ rest)) = nl ++ rest from rfl]
  have hall : ∀ c ∈ nl, (fun c => decide (¬ isNetlocDelim c = true)) c = true := by
    intro c hc
    simp [hnl c hc]
  cases rest with
  | nil => rw [List.append_nil]; rw [takeWhile_all_eq_self hall, dropWhile_all_eq_nil hall]
  | cons r rs =>
    have hd : isNetlocDelim r = true := by
      rcases hrest with he | hd
      · exact absurd he (by simp)
      · simpa using hd
    have hrd : (fun c => decide (¬ isNetlocDelim c = true)) r = false := by simp [hd]
    rw [takeWhile_append_mid hrd, dropWhile_append_mid hrd,
      takeWhile_all_eq_self hall, dropWhile_all_eq_nil hall]
    simp

theorem splitNetlocPart_not_slashes {R : Chars} (h : ¬ R.take 2 = ['/', '/']) :
    splitNetlocPart R = ([], R) := by
  unfold splitNetlocPart
  rw [if_neg h]

theorem splitFragmentPart_no_hash {N : Chars} (h : ∀ c ∈ N, c ≠ '#') :
    splitFragmentPart N = (N, []) := by
  unfold splitFragmentPart
  rw [if_neg (fun hc => h '#' (List.elem_iff.mp hc) rfl)]

theorem splitQueryPart_no_q {M : Chars} (h : ∀ c ∈ M, c ≠ '?') :
    splitQueryPart M = (M, []) := by
  unfold splitQueryPart
  rw [if_neg (fun hc => h '?' (List.elem_iff.mp hc) rfl)]

theorem splitQueryPart_append {P q : Chars} (h : ∀ c ∈ P, c ≠ '?') :
    splitQueryPart (P ++ '?' :: q) = (P, q) := by
  unfold splitQueryPart splitFirst
  have hcont : ((P ++ '?' :: q).contains '?') = true := List.elem_iff.mpr (by simp)
  rw [if_pos hcont]
  have hall : ∀ c ∈ P, (fun c => decide (c ≠ '?')) c = true := by
    intro c hc
    simp [h c hc]
  rw [takeWhile_append_mid (by simp), dropWhile_append_mid (by simp),
    takeWhile_all_eq_self hall, dropWhile_all_eq_nil hall]
  simp

theorem pathQT_head (P qu : Chars) (hPh : P = [] ∨ P.headD ' ' = '/') :
    P ++ (if qu ≠ [] then '?' :: qu else []) = [] ∨
    isNetlocDelim ((P ++ (if qu ≠ [] then '?' :: qu else [])).headD ' ') = true := by
  rcases hPh with rfl | hh
  · by_cases hque : qu ≠ []
    · rw [if_pos hque]
      refine .inr ?_
      simp [isNetlocDelim]
    · rw [if_neg hque]
      exact .inl rfl
  · cases P with
    | nil =>
      exfalso
      rw [List.headD_nil] at hh
      exact absurd hh (by decide)
    | cons p ps =>
      refine .inr ?_
      have hp : p = '/' := by simpa using hh
      simp [hp, isNetlocDelim]

theorem pathQT_no_hash {P qu : Chars} (hP : ∀ c ∈ P, c ≠ '#')
    (hq : ∀ c ∈ qu, c ≠ '#') :
    ∀ c ∈ P ++ (if qu ≠ [] then '?' :: qu else []), c ≠ '#' := by
  intro c hc
  rcases List.mem_append.mp hc with hc | hc
  · exact hP c hc
  · split at hc
    · rcases List.mem_cons.mp hc with rfl | hc
      · decide
      · exact hq c hc
    · simp at hc

theorem splitQueryPart_queryTail {P : Chars} (qu : Chars) (hP : ∀ c ∈ P, c ≠ '?') :
    splitQueryPart (P ++ (if qu ≠ [] then '?' :: qu else [])) = (P, qu) := by
  by_cases hque : qu ≠ []
  · rw [if_pos hque]
    exact splitQueryPart_append hP
  · rw [if_neg hque]
    rw [List.append_nil, splitQueryPart_no_q hP]
    simp at hque
    rw [hque]

theorem unsplit_eq (sch nl pa qu : Chars) (hsch_ne : sch ≠ []) :
    pyUrlunsplit ⟨sch, nl, pa, qu, []⟩
      = sch ++ ':' ::
          ((if nl ≠ [] ∨ (sch ≠ [] ∧ sch ∈ usesNetloc ∧ pa.take 2 ≠ ['/', '/']) then
              '/' :: '/' ::
                (nl ++ (if pa ≠ [] ∧ pa.headD ' ' ≠ '/' then '/' :: pa else pa))
            else pa) ++ (if qu ≠ [] then '?' :: qu else [])) := by
  unfold pyUrlunsplit
  dsimp only
  rw [if_neg (show ¬(([] : Chars) ≠ []) by simp), if_pos hsch_ne]
  by_cases hque : qu ≠ []
  · rw [if_pos hque, if_pos hque]
    simp
  · rw [if_neg hque, if_neg hque]
    simp

/-- Re-splitting a URL assembled by `pyUrlunsplit` from well-shaped parts
recovers the parts exactly, except that the empty-authority `uses_netloc`
branch roots a relative path with a `/`. -/
theorem pyUrlsplit_pyUrlunsplit (s : SplitParts)
    (hsp : ∀ c ∈ pyUrlunsplit s, isPySpace c = false)
    (hsch_ne : s.scheme ≠ [])
    (hsch : s.scheme.all isSchemeChar = true)
    (hhd : (s.scheme.headD ' ').isAlpha = true)
    (hlow : lowerChars s.scheme = s.scheme)
    (hnl : ∀ c ∈ s.netloc, isNetlocDelim c = false)
    (hpath : ∀ c ∈ s.path, c ≠ '#' ∧ c ≠ '?')
    (hq : ∀ c ∈ s.query, c ≠ '#')
    (hslash : s.netloc ≠ [] → s.path = [] ∨ s.path.headD ' ' = '/')
    (hdbl : ¬(s.netloc = [] ∧ s.path.take 2 = ['/', '/']))
    (hfrag : s.fragment = []) :
    pyUrlsplit (pyUrlunsplit s)
      = { s with path :=
            if s.netloc = [] ∧ s.scheme ∈ usesNetloc ∧ s.path ≠ [] ∧
                s.path.headD ' ' ≠ '/' then '/' :: s.path else s.path } := by
  obtain ⟨sch, nl, pa, qu, fr⟩ := s
  dsimp only at *
  subst hfrag
  have h0 : removeUnsafeChars (pyUrlunsplit ⟨sch, nl, pa, qu, []⟩)
      = pyUrlunsplit ⟨sch, nl, pa, qu, []⟩ := removeUnsafeChars_eq_self hsp
  rw [pyUrlsplit_red _ h0, unsplit_eq sch nl pa qu hsch_ne,
    splitSchemePart_scheme_colon hsch_ne hsch hhd hlow]
  dsimp only
  have hPno : ∀ c ∈ pa, c ≠ '#' := fun c hc => (hpath c hc).1
  have hPnoq : ∀ c ∈ pa, c ≠ '?' := fun c hc => (hpath c hc).2
  by_cases hnle : nl = []
  · subst hnle
    have htks : pa.take 2 ≠ ['/', '/'] := fun hcontra => hdbl ⟨rfl, hcontra⟩
    by_cases huse : sch ∈ usesNetloc
    · rw [if_pos (show (([] : Chars) ≠ [] ∨
        (sch ≠ [] ∧ sch ∈ usesNetloc ∧ pa.take 2 ≠ ['/', '/'])) from
        .inr ⟨hsch_ne, huse, htks⟩)]
      by_cases hins : pa ≠ [] ∧ pa.headD ' ' ≠ '/'
      · rw [if_pos hins]
        have hsh : ('/' :: '/' :: (([] : Chars) ++ '/' :: pa)) ++
            (if qu ≠ [] then '?' :: qu else [])
            = '/' :: '/' :: (([] : Chars) ++
                (('/' :: pa) ++ (if qu ≠ [] then '?' :: qu else []))) := by
          simp
        rw [hsh, splitNetloc_after_slashes (by simp)
          (pathQT_head ('/' :: pa) qu (.inr (by simp)))]
        dsimp only
        have hnh : ∀ c ∈ ('/' :: pa) ++ (if qu ≠ [] then '?' :: qu else []), c ≠ '#' :=
          pathQT_no_hash (fun c hc => by
            rcases List.mem_cons.mp hc with rfl | hc
            · decide
            · exact hPno c hc) hq
        rw [splitFragmentPart_no_hash hnh]
        dsimp only
        rw [splitQueryPart_queryTail qu (fun c hc => by
          rcases List.mem_cons.mp hc with rfl | hc
          · decide
          · exact hPnoq c hc)]
        rw [if_pos ⟨rfl, huse, hins.1, hins.2⟩]
      · rw [if_neg hins]
        have hsh : ('/' :: '/' :: (([] : Chars) ++ pa)) ++
            (if qu ≠ [] then '?' :: qu else [])
            = '/' :: '/' :: (([] : Chars) ++
                (pa ++ (if qu ≠ [] then '?' :: qu else []))) := by
          simp
        have hph : pa = [] ∨ pa.headD ' ' = '/' := by
          by_cases hpe : pa = []
          · exact .inl hpe
          · refine .inr ?_
            by_contra hch
            exact hins ⟨hpe, hch⟩
        rw [hsh, splitNetloc_after_slashes (by simp) (pathQT_head pa qu hph)]
        dsimp only
        rw [splitFragmentPart_no_hash (pathQT_no_hash hPno hq)]
        dsimp only
        rw [splitQueryPart_queryTail qu hPnoq]
        rw [if_neg (fun hcontra => hins ⟨hcontra.2.2.1, hcontra.2.2.2⟩)]
    · rw [if_neg (show ¬(([] : Chars) ≠ [] ∨
        (sch ≠ [] ∧ sch ∈ usesNetloc ∧ pa.take 2 ≠ ['/', '/'])) from by
          intro hcontra
          rcases hcontra with hcontra | ⟨-, hu, -⟩
          · exact hcontra rfl
          · exact huse hu)]
      have htk2 : ¬ (pa ++ (if qu ≠ [] then '?' :: qu else [])).take 2 = ['/', '/'] := by
        by_cases hque : qu ≠ []
        · rw [if_pos hque]
          intro hcontra
          exact htks (take2_append_q (by decide) hcontra)
        · rw [if_neg hque, List.append_nil]
          exact htks
      rw [splitNetlocPart_not_slashes htk2]
      dsimp only
      rw [splitFragmentPart_no_hash (pathQT_no_hash hPno hq)]
      dsimp only
      rw [splitQueryPart_queryTail qu hPnoq]
      rw [if_neg (fun hcontra => huse hcontra.2.1)]
  · rw [if_pos (.inl hnle)]
    have hins : ¬(pa ≠ [] ∧ pa.headD ' ' ≠ '/') := by
      rcases hslash hnle with hpe | hph
      · exact fun hcontra => hcontra.1 hpe
      · exact fun hcontra => hcontra.2 hph
    rw [if_neg hins]
    have hsh : ('/' :: '/' :: (nl ++ pa)) ++ (if qu ≠ [] then '?' :: qu else [])
        = '/' :: '/' :: (nl ++ (pa ++ (if qu ≠ [] then '?' :: qu else []))) := by
      simp
    rw [hsh, splitNetloc_after_slashes hnl
      (pathQT_head pa qu (by
        rcases hslash hnle with hpe | hph
        · exact .inl hpe
        · exact .inr hph))]
    dsimp only
    rw [splitFragmentPart_no_hash (pathQT_no_hash hPno hq)]
    dsimp only
    rw [splitQueryPart_queryTail qu hPnoq]
    rw [if_neg (fun hcontra => hnle hcontra.1)]

/-- Rooting a relative path in the empty-authority `uses_netloc` branch does
not change the assembled URL string. -/
theorem pyUrlunsplit_adjust (s : SplitParts) (hsch_ne : s.scheme ≠ []) :
    pyUrlunsplit { s with path := if s.netloc = [] ∧ s.scheme ∈ usesNetloc ∧ s.path ≠ [] ∧ s.path.headD ' ' ≠ '/' then '/' :: s.path else s.path }
      = pyUrlunsplit s := by
  by_cases hc : s.netloc = [] ∧ s.scheme ∈ usesNetloc ∧ s.path ≠ [] ∧
      s.path.headD ' ' ≠ '/'
  · rw [if_pos hc]
    obtain ⟨hnl, huse, hpne, hph⟩ := hc
    obtain ⟨sch, nl, pa, qu, fr⟩ := s
    dsimp only at *
    subst hnl
    cases pa with
    | nil => exact absurd rfl hpne
    | cons x xs =>
      have hx : x ≠ '/' := by simpa using hph
      unfold pyUrlunsplit
      dsimp only
      rw [if_pos (show ([] : Chars) ≠ [] ∨ (sch ≠ [] ∧ sch ∈ usesNetloc ∧
          ('/' :: x :: xs).take 2 ≠ ['/', '/']) from .inr ⟨hsch_ne, huse, by
            intro hcontra
            have h2 : ['/', x] = ['/', '/'] := hcontra
            simp at h2
            exact hx h2⟩),
        if_pos (show ([] : Chars) ≠ [] ∨ (sch ≠ [] ∧ sch ∈ usesNetloc ∧
          ((x :: xs).take 2 ≠ ['/', '/'])) from .inr ⟨hsch_ne, huse, by
            intro hcontra
            have h3 : x :: xs.take 1 = ['/', '/'] := hcontra
            simp at h3
            exact hx h3.1⟩)]
      rw [if_neg (show ¬(('/' :: x :: xs) ≠ [] ∧ ('/' :: x :: xs).headD ' ' ≠ '/') from by
          intro hcontra
          exact hcontra.2 (by simp)),
        if_pos (show (x :: xs) ≠ [] ∧ (x :: xs).headD ' ' ≠ '/' from
          ⟨by simp, by simpa using hx⟩)]
  · rw [if_neg hc]

/-! Branch-computation lemmas for `normalizeSourceUrlChars`. -/

theorem normalize_plain_branch (u : Chars) (hne : u ≠ []) (hstrip : pyStrip u = u)
    (hsch : (pyUrlparse u).scheme = []) :
    normalizeSourceUrlChars (some u) = some u := by
  unfold normalizeSourceUrlChars
  dsimp only
  rw [if_neg hne, hstrip, if_neg hne, if_pos hsch]

theorem normalize_generic_branch (u : Chars) (hne : u ≠ []) (hstrip : pyStrip u = u)
    (hsch : ¬ (pyUrlparse u).scheme = [])
    (hcase : recognizedVideoNetloc (lowerChars (pyUrlparse u).netloc) = false ∨
      extractVideoId (pyUrlparse u) = none ∨ extractVideoId (pyUrlparse u) = some []) :
    normalizeSourceUrlChars (some u) = some (genericNormalizedUrl (pyUrlparse u)) := by
  unfold normalizeSourceUrlChars
  dsimp only
  rw [if_neg hne, hstrip, if_neg hne, if_neg hsch]
  rcases hcase with hrec | hext | hext
  · rw [if_neg (by rw [hrec]; simp)]
  · by_cases hrec : recognizedVideoNetloc (lowerChars (pyUrlparse u).netloc) = true
    · rw [if_pos hrec, hext]
    · rw [if_neg hrec]
  · by_cases hrec : recognizedVideoNetloc (lowerChars (pyUrlparse u).netloc) = true
    · rw [if_pos hrec, hext]
      rfl
    · rw [if_neg hrec]

theorem normalize_vid_branch (u vid : Chars) (hne : u ≠ []) (hstrip : pyStrip u = u)
    (hsch : ¬ (pyUrlparse u).scheme = [])
    (hrec : recognizedVideoNetloc (lowerChars (pyUrlparse u).netloc) = true)
    (hext : extractVideoId (pyUrlparse u) = some vid) (hvne : vid ≠ []) :
    normalizeSourceUrlChars (some u) = some (canonicalWatchUrl vid) := by
  unfold normalizeSourceUrlChars
  dsimp only
  rw [if_neg hne, hstrip, if_neg hne, if_neg hsch, if_pos hrec, hext]
  dsimp only
  rw [if_pos hvne]

/-- A URL string assembled by `pyUrlunsplit` from well-shaped,
params-rejoin-normal parts with an empty fragment is a fixed point of
`normalize_source_url` whenever the netloc is not a recognized video host or
the video-id extraction comes up empty. -/
theorem normalize_unsplit_fixpoint (sch nl pa qu : Chars)
    (hsp : ∀ c ∈ pyUrlunsplit ⟨sch, nl, pa, qu, []⟩, isPySpace c = false)
    (hsch_ne : sch ≠ [])
    (hall : sch.all isSchemeChar = true) (hhd : (sch.headD ' ').isAlpha = true)
    (hlow : lowerChars sch = sch)
    (hnl : ∀ c ∈ nl, isNetlocDelim c = false)
    (hpa : ∀ c ∈ pa, c ≠ '#' ∧ c ≠ '?')
    (hqu : ∀ c ∈ qu, c ≠ '#')
    (hslash : nl ≠ [] → pa = [] ∨ pa.headD ' ' = '/')
    (hdbl : ¬(nl = [] ∧ pa.take 2 = ['/', '/']))
    (hrejoin : joinParams (pathParams pa).1 (pathParams pa).2 = pa)
    (hcase : recognizedVideoNetloc (lowerChars nl) = false ∨
      (∀ vid, extractVideoId ⟨sch, nl, (pathParams pa).1, (pathParams pa).2, qu, []⟩
          = some vid → vid = [])) :
    normalizeSourceUrlChars (some (pyUrlunsplit ⟨sch, nl, pa, qu, []⟩))
      = some (pyUrlunsplit ⟨sch, nl, pa, qu, []⟩) := by
  have hadj := pyUrlsplit_pyUrlunsplit ⟨sch, nl, pa, qu, []⟩ hsp hsch_ne hall hhd hlow
    hnl hpa hqu hslash hdbl rfl
  have hadj' : pyUrlsplit (pyUrlunsplit ⟨sch, nl, pa, qu, []⟩)
      = ⟨sch, nl, if nl = [] ∧ sch ∈ usesNetloc ∧ pa ≠ [] ∧ pa.headD ' ' ≠ '/'
          then '/' :: pa else pa, qu, []⟩ := by
    rw [hadj]
  have hparse : pyUrlparse (pyUrlunsplit ⟨sch, nl, pa, qu, []⟩)
      = ⟨sch, nl,
          (pathParams (if nl = [] ∧ sch ∈ usesNetloc ∧ pa ≠ [] ∧ pa.headD ' ' ≠ '/'
            then '/' :: pa else pa)).1,
          (pathParams (if nl = [] ∧ sch ∈ usesNetloc ∧ pa ≠ [] ∧ pa.headD ' ' ≠ '/'
            then '/' :: pa else pa)).2, qu, []⟩ := by
    unfold pyUrlparse
    rw [hadj']
  have ho_ne : pyUrlunsplit ⟨sch, nl, pa, qu, []⟩ ≠ [] := by
    rw [unsplit_eq sch nl pa qu hsch_ne]
    simp
  have ho_strip : pyStrip (pyUrlunsplit ⟨sch, nl, pa, qu, []⟩)
      = pyUrlunsplit ⟨sch, nl, pa, qu, []⟩ := pyStrip_eq_self hsp
  have hsch' : ¬ (pyUrlparse (pyUrlunsplit ⟨sch, nl, pa, qu, []⟩)).scheme = [] := by
    rw [hparse]
    exact hsch_ne
  by_cases hcb : nl = [] ∧ sch ∈ usesNetloc ∧ pa ≠ [] ∧ pa.headD ' ' ≠ '/'
  · have hrec : recognizedVideoNetloc
        (lowerChars (pyUrlparse (pyUrlunsplit ⟨sch, nl, pa, qu, []⟩)).netloc) = false := by
      rw [hparse]
      dsimp only
      rw [hcb.1]
      decide
    rw [normalize_generic_branch _ ho_ne ho_strip hsch' (.inl hrec)]
    have hgen : genericNormalizedUrl (pyUrlparse (pyUrlunsplit ⟨sch, nl, pa, qu, []⟩))
        = pyUrlunsplit ⟨sch, nl,
            joinParams (pathParams ('/' :: pa)).1 (pathParams ('/' :: pa)).2, qu, []⟩ := by
      rw [hparse, if_pos hcb]
      rfl
    rw [hgen, pathParams_cons_slash]
    dsimp only
    rw [joinParams_cons, hrejoin]
    have hD2 := pyUrlunsplit_adjust ⟨sch, nl, pa, qu, []⟩ hsch_ne
    rw [if_pos hcb] at hD2
    rw [hD2]
  · have hparse2 : pyUrlparse (pyUrlunsplit ⟨sch, nl, pa, qu, []⟩)
        = ⟨sch, nl, (pathParams pa).1, (pathParams pa).2, qu, []⟩ := by
      rw [hparse, if_neg hcb]
    have hgen : genericNormalizedUrl (pyUrlparse (pyUrlunsplit ⟨sch, nl, pa, qu, []⟩))
        = pyUrlunsplit ⟨sch, nl, pa, qu, []⟩ := by
      rw [hparse2]
      show pyUrlunsplit ⟨sch, nl, joinParams (pathParams pa).1 (pathParams pa).2, qu, []⟩
        = pyUrlunsplit ⟨sch, nl, pa, qu, []⟩
      rw [hrejoin]
    rcases hcase with hrec | hfalsy
    · rw [normalize_generic_branch _ ho_ne ho_strip hsch'
        (.inl (by rw [hparse2]; exact hrec)), hgen]
    · have hext_o : extractVideoId (pyUrlparse (pyUrlunsplit ⟨sch, nl, pa, qu, []⟩)) = none ∨
          extractVideoId (pyUrlparse (pyUrlunsplit ⟨sch, nl, pa, qu, []⟩)) = some [] := by
        rw [hparse2]
        cases hev : extractVideoId ⟨sch, nl, (pathParams pa).1, (pathParams pa).2, qu, []⟩ with
        | none => exact .inl rfl
        | some v =>
          refine .inr ?_
          rw [hfalsy v hev]
      rw [normalize_generic_branch _ ho_ne ho_strip hsch' (.inr hext_o), hgen]

theorem headD_of_head? {l : Chars} {x : Char} (h : l.head? = some x) (d : Char) :
    l.headD d = x := by
  cases l with
  | nil => simp at h
  | cons a as =>
    simp at h
    simp [h]

theorem take2_append_semi {X pa : Chars} (hXe : X ++ [';'] = pa)
    (htk : X.take 2 = ['/', '/']) : pa.take 2 = ['/', '/'] := by
  cases X with
  | nil => simp at htk
  | cons x xs =>
    cases xs with
    | nil =>
      have h2 : [x] = ['/', '/'] := htk
      simp at h2
    | cons y ys =>
      have h2 : [x, y] = ['/', '/'] := htk
      simp at h2
      rcases h2 with ⟨rfl, rfl⟩
      rw [← hXe]
      rfl

theorem extractVideoId_congr {p q : UrlParts} (hn : p.netloc = q.netloc)
    (hp : p.path = q.path) (hq : p.query = q.query) :
    extractVideoId p = extractVideoId q := by
  unfold extractVideoId
  rw [hn, hp, hq]

/-- For a whitespace-free absolute URL that does not combine an empty
authority with a `//`-leading path, the generic normalized form (fragment
dropped, rest re-serialized) is a fixed point of `normalize_source_url`,
provided the URL is not a recognized video link with a nonempty video id. -/
theorem normalize_generic_fixpoint (u : Chars)
    (hws : ∀ c ∈ u, isPySpace c = false)
    (hsch : ¬ (pyUrlparse u).scheme = [])
    (hdbl : ¬((pyUrlsplit u).netloc = [] ∧ (pyUrlsplit u).path.take 2 = ['/', '/']))
    (hcase : recognizedVideoNetloc (lowerChars (pyUrlparse u).netloc) = false ∨
      (∀ vid, extractVideoId (pyUrlparse u) = some vid → vid = [])) :
    normalizeSourceUrlChars (some (genericNormalizedUrl (pyUrlparse u)))
      = some (genericNormalizedUrl (pyUrlparse u)) := by
  have hu_unsafe : removeUnsafeChars u = u := removeUnsafeChars_eq_self hws
  obtain ⟨hn1, hp1, hq1, hnp, hnm, hpm, hqm, hsm, hsv⟩ := pyUrlsplit_shape u hu_unsafe
  rcases hsplit : pyUrlsplit u with ⟨sch0, nl0, pa0, qu0, fr0⟩
  rw [hsplit] at hn1 hp1 hq1 hnp hnm hpm hqm hsm hsv hdbl
  dsimp only at hn1 hp1 hq1 hnp hnm hpm hqm hsm hsv hdbl
  have hup : pyUrlparse u = ⟨sch0, nl0, (pathParams pa0).1, (pathParams pa0).2, qu0, fr0⟩ := by
    unfold pyUrlparse
    rw [hsplit]
  rw [hup] at hsch hcase ⊢
  dsimp only at hsch hcase
  obtain ⟨hall, hhd, hlow⟩ := hsv hsch
  obtain ⟨hstab, hmemX, hheadX, hemptyX, hrejoinX⟩ := pathParams_facts pa0
  have hgen0 : genericNormalizedUrl ⟨sch0, nl0, (pathParams pa0).1, (pathParams pa0).2, qu0, fr0⟩
      = pyUrlunsplit ⟨sch0, nl0, joinParams (pathParams pa0).1 (pathParams pa0).2, qu0, []⟩ :=
    rfl
  rw [hgen0]
  apply normalize_unsplit_fixpoint
  · intro c hc
    rcases mem_pyUrlunsplit hc with h | h | h | h | h | rfl | rfl | rfl | rfl
    · obtain ⟨d, hd, hcd⟩ := hsm c h
      rw [hcd]
      exact isPySpace_toLower (hws d hd)
    · exact hws c (hnm c h)
    · rcases hmemX c h with h2 | rfl
      · exact hws c (hpm c h2)
      · decide
    · exact hws c (hqm c h)
    · simp at h
    · decide
    · decide
    · decide
    · decide
  · exact hsch
  · exact hall
  · exact hhd
  · exact hlow
  · exact hn1
  · intro c hc
    rcases hmemX c hc with h2 | rfl
    · exact hp1 c h2
    · exact ⟨by decide, by decide⟩
  · exact hq1
  · intro hnl_ne
    rcases hnp hnl_ne with hpe | hph
    · exact .inl (hemptyX hpe)
    · cases pa0 with
      | nil => exact .inl (hemptyX rfl)
      | cons p0 ps =>
        have hh : (p0 :: ps).head? = some '/' := by
          simp at hph
          simp [hph]
        exact .inr (headD_of_head? (hheadX hh) ' ')
  · intro hcontra
    obtain ⟨hnle, htk⟩ := hcontra
    apply hdbl
    refine ⟨hnle, ?_⟩
    rcases hrejoinX with hXe | hXe
    · rw [← hXe]
      exact htk
    · exact take2_append_semi hXe htk
  · rw [hstab]
  · rcases hcase with hrec | hfalsy
    · exact .inl hrec
    · refine .inr ?_
      intro vid hev
      rw [hstab] at hev
      apply hfalsy vid
      have hEq : extractVideoId ⟨sch0, nl0, (pathParams pa0).1, (pathParams pa0).2, qu0, fr0⟩
          = extractVideoId ⟨sch0, nl0, (pathParams pa0).1, (pathParams pa0).2, qu0, []⟩ :=
        extractVideoId_congr rfl rfl rfl
      rw [hEq]
      exact hev

/-! Facts about characters of a well-formed video id (`[A-Za-z0-9_-]`). -/

theorem safe_char_facts {c : Char}
    (h : c.isAlpha = true ∨ c.isDigit = true ∨ c = '-' ∨ c = '_') :
    isPySpace c = false ∧ c ≠ '#' ∧ c ≠ '&' ∧ c ≠ '+' ∧ c ≠ '%' ∧
    c ≠ '?' ∧ c ≠ '/' ∧ c ≠ ';' := by
  have hrange : ((48 ≤ c.toNat ∧ c.toNat ≤ 57) ∨ 65 ≤ c.toNat) ∨ c = '-' ∨ c = '_' := by
    rcases h with h | h | h | h
    · unfold Char.isAlpha at h
      rw [Bool.or_eq_true] at h
      rcases h with h | h
      · exact .inl (.inr ((char_isUpper_iff c).mp h).1)
      · have h2 := ((char_isLower_iff c).mp h).1
        exact .inl (.inr (by omega))
    · exact .inl (.inl ((char_isDigit_iff c).mp h))
    · exact .inr (.inl h)
    · exact .inr (.inr h)
  rcases hrange with h | rfl | rfl
  · refine ⟨?_, ?_, ?_, ?_, ?_, ?_, ?_, ?_⟩
    · cases hsp : isPySpace c with
      | false => rfl
      | true =>
        have := isPySpace_toNat_le hsp
        omega
    · intro he
      rw [he] at h
      have h2 : ('#' : Char).toNat = 35 := rfl
      omega
    · intro he
      rw [he] at h
      have h2 : ('&' : Char).toNat = 38 := rfl
      omega
    · intro he
      rw [he] at h
      have h2 : ('+' : Char).toNat = 43 := rfl
      omega
    · intro he
      rw [he] at h
      have h2 : ('%' : Char).toNat = 37 := rfl
      omega
    · intro he
      rw [he] at h
      have h2 : ('?' : Char).toNat = 63 := rfl
      omega
    · intro he
      rw [he] at h
      have h2 : ('/' : Char).toNat = 47 := rfl
      omega
    · intro he
      rw [he] at h
      have h2 : (';' : Char).toNat = 59 := rfl
      omega
  · exact ⟨by decide, by decide, by decide, by decide, by decide, by decide,
      by decide, by decide⟩
  · exact ⟨by decide, by decide, by decide, by decide, by decide, by decide,
      by decide, by decide⟩

/-! Evaluation lemmas for `split`, `+`-to-space and `unquote` on benign text. -/

theorem splitOnChar_no_sep {sep : Char} {l : Chars} (h : ∀ c ∈ l, c ≠ sep) :
    splitOnChar sep l = [l] := by
  induction l with
  | nil => rfl
  | cons c rest ih =>
    unfold splitOnChar
    rw [if_neg (h c (by simp)), ih (fun d hd => h d (by simp [hd]))]

theorem splitOnChar_cons_sep (sep : Char) (l : Chars) :
    splitOnChar sep (sep :: l) = [] :: splitOnChar sep l := by
  conv_lhs => unfold splitOnChar
  rw [if_pos rfl]

theorem splitOnChar_cons_ne_of {sep c : Char} {l h0 : Chars} {t : List Chars}
    (hc : c ≠ sep) (hl : splitOnChar sep l = h0 :: t) :
    splitOnChar sep (c :: l) = (c :: h0) :: t := by
  unfold splitOnChar
  rw [if_neg hc, hl]

theorem plusToSpace_no_plus : ∀ {l : Chars}, (∀ c ∈ l, c ≠ '+') → plusToSpace l = l
  | [], _ => rfl
  | c :: rest, h => by
    have h1 : plusToSpace rest = rest :=
      plusToSpace_no_plus (fun d hd => h d (List.mem_cons_of_mem _ hd))
    unfold plusToSpace at h1 ⊢
    simp only [List.map_cons, h1]
    rw [if_neg (h c (List.mem_cons_self _ _))]

theorem pyUnquote_no_pct : ∀ {l : Chars}, (∀ c ∈ l, c ≠ '%') → pyUnquote l = l
  | [], _ => rfl
  | [c], h => by
    unfold pyUnquote
    rw [if_neg (h c (by simp))]
    rfl
  | [c, a], h => by
    unfold pyUnquote
    rw [if_neg (h c (by simp)),
      pyUnquote_no_pct (l := [a]) (fun d hd => h d (by simp at hd; simp [hd]))]
  | c :: a :: b :: rest, h => by
    unfold pyUnquote
    rw [if_neg (h c (by simp)),
      pyUnquote_no_pct (l := a :: b :: rest) (fun d hd => h d (by
        simp only [List.mem_cons] at hd ⊢
        tauto))]

theorem qsGetFirst_v (vid : Chars) (hvne : vid ≠ [])
    (hv : ∀ c ∈ vid, c.isAlpha = true ∨ c.isDigit = true ∨ c = '-' ∨ c = '_') :
    qsGetFirst (("v").data) ((("v=").data) ++ vid) = some vid := by
  have hform : (("v=").data) ++ vid = 'v' :: '=' :: vid := rfl
  rw [hform]
  have hamp : ∀ c ∈ 'v' :: '=' :: vid, c ≠ '&' := by
    intro c hc
    simp only [List.mem_cons] at hc
    rcases hc with rfl | rfl | hc
    · decide
    · decide
    · exact (safe_char_facts (hv c hc)).2.2.1
  have hpair : qslPair ('v' :: '=' :: vid) = some ((("v").data), vid) := by
    unfold qslPair
    rw [if_neg (by simp)]
    rw [if_pos (show (('v' :: '=' :: vid).contains '=') = true from rfl)]
    rw [if_pos (show (('v' :: '=' :: vid).dropWhile (fun c => c ≠ '=')).drop 1 ≠ []
      from hvne)]
    rw [show (('v' :: '=' :: vid).takeWhile (fun c => c ≠ '=')) = ['v'] from rfl]
    rw [show (('v' :: '=' :: vid).dropWhile (fun c => c ≠ '=')).drop 1 = vid from rfl]
    rw [show plusToSpace ['v'] = ['v'] from rfl]
    rw [plusToSpace_no_plus (fun c hc => (safe_char_facts (hv c hc)).2.2.2.1)]
    rw [show pyUnquote ['v'] = ['v'] from rfl]
    rw [pyUnquote_no_pct (fun c hc => (safe_char_facts (hv c hc)).2.2.2.2.1)]
  unfold qsGetFirst pyParseQsl
  rw [splitOnChar_no_sep hamp]
  have hfm : List.filterMap qslPair ['v' :: '=' :: vid] = [((("v").data), vid)] := by
    rw [List.filterMap_cons, hpair]
    rfl
  rw [hfm]
  simp [List.find?]

/-! Evaluation of the video-id extraction chain on the four recognized link
shapes, driven by explicit hypotheses on the parsed fields. -/

theorem extractVideoId_watch {p : UrlParts} {vid : Chars}
    (h1 : containsSub (("youtu.be").data) (lowerChars p.netloc) = false)
    (h2 : (("/watch").data).isPrefixOf p.path = true)
    (h3 : qsGetFirst (("v").data) p.query = some vid)
    (htr : truthyOpt (some vid) = true) :
    extractVideoId p = some vid := by
  unfold extractVideoId
  dsimp only
  have k1 : ¬ (containsSub (("youtu.be").data) (lowerChars p.netloc) = true) := by
    rw [h1]
    simp
  rw [if_neg k1]
  have k2 : ¬ truthyOpt none = true ∧ (("/watch").data).isPrefixOf p.path = true :=
    ⟨by simp [truthyOpt], h2⟩
  rw [if_pos k2, h3]
  have k3 : ¬ (¬ truthyOpt (some vid) = true ∧
      (("/shorts/").data).isPrefixOf p.path = true) := fun hc => hc.1 htr
  rw [if_neg k3]
  have k4 : ¬ (¬ truthyOpt (some vid) = true ∧
      (("/embed/").data).isPrefixOf p.path = true) := fun hc => hc.1 htr
  rw [if_neg k4]

theorem extractVideoId_shortlink {p : UrlParts} {vid : Chars}
    (h1 : containsSub (("youtu.be").data) (lowerChars p.netloc) = true)
    (h2 : (pathParts p.path).head? = some vid)
    (htr : truthyOpt (some vid) = true) :
    extractVideoId p = some vid := by
  unfold extractVideoId
  dsimp only
  rw [if_pos h1, h2]
  have k2 : ¬ (¬ truthyOpt (some vid) = true ∧
      (("/watch").data).isPrefixOf p.path = true) := fun hc => hc.1 htr
  rw [if_neg k2]
  have k3 : ¬ (¬ truthyOpt (some vid) = true ∧
      (("/shorts/").data).isPrefixOf p.path = true) := fun hc => hc.1 htr
  rw [if_neg k3]
  have k4 : ¬ (¬ truthyOpt (some vid) = true ∧
      (("/embed/").data).isPrefixOf p.path = true) := fun hc => hc.1 htr
  rw [if_neg k4]

theorem extractVideoId_shorts {p : UrlParts} {vid : Chars} {A : Chars} {rest : List Chars}
    (h1 : containsSub (("youtu.be").data) (lowerChars p.netloc) = false)
    (h2 : (("/watch").data).isPrefixOf p.path = false)
    (h3 : (("/shorts/").data).isPrefixOf p.path = true)
    (h4 : pathParts p.path = A :: vid :: rest)
    (htr : truthyOpt (some vid) = true) :
    extractVideoId p = some vid := by
  unfold extractVideoId
  dsimp only
  have k1 : ¬ (containsSub (("youtu.be").data) (lowerChars p.netloc) = true) := by
    rw [h1]
    simp
  rw [if_neg k1]
  have k2 : ¬ (¬ truthyOpt none = true ∧
      (("/watch").data).isPrefixOf p.path = true) := by
    intro hc
    rw [h2] at hc
    exact absurd hc.2 (by simp)
  rw [if_neg k2]
  have k3 : ¬ truthyOpt none = true ∧ (("/shorts/").data).isPrefixOf p.path = true :=
    ⟨by simp [truthyOpt], h3⟩
  rw [if_pos k3, h4]
  dsimp only
  have k4 : ¬ (¬ truthyOpt (some vid) = true ∧
      (("/embed/").data).isPrefixOf p.path = true) := fun hc => hc.1 htr
  rw [if_neg k4]

theorem extractVideoId_embed {p : UrlParts} {vid : Chars} {A : Chars} {rest : List Chars}
    (h1 : containsSub (("youtu.be").data) (lowerChars p.netloc) = false)
    (h2 : (("/watch").data).isPrefixOf p.path = false)
    (h3 : (("/shorts/").data).isPrefixOf p.path = false)
    (h4 : (("/embed/").data).isPrefixOf p.path = true)
    (h5 : pathParts p.path = A :: vid :: rest)
    (htr : truthyOpt (some vid) = true) :
    extractVideoId p = some vid := by
  unfold extractVideoId
  dsimp only
  have k1 : ¬ (containsSub (("youtu.be").data) (lowerChars p.netloc) = true) := by
    rw [h1]
    simp
  rw [if_neg k1]
  have k2 : ¬ (¬ truthyOpt none = true ∧
      (("/watch").data).isPrefixOf p.path = true) := by
    intro hc
    rw [h2] at hc
    exact absurd hc.2 (by simp)
  rw [if_neg k2]
  have k3 : ¬ (¬ truthyOpt none = true ∧
      (("/shorts/").data).isPrefixOf p.path = true) := by
    intro hc
    rw [h3] at hc
    exact absurd hc.2 (by simp)
  rw [if_neg k3]
  have k4 : ¬ truthyOpt none = true ∧ (("/embed/").data).isPrefixOf p.path = true :=
    ⟨by simp [truthyOpt], h4⟩
  rw [if_pos k4, h5]

/-- The canonical watch URL built for a well-formed video id is a fixed
point of `normalize_source_url`. -/
theorem normalize_canonical_fixpoint (vid : Chars) (hvne : vid ≠ [])
    (hv : ∀ c ∈ vid, c.isAlpha = true ∨ c.isDigit = true ∨ c = '-' ∨ c = '_') :
    normalizeSourceUrlChars (some (canonicalWatchUrl vid))
      = some (canonicalWatchUrl vid) := by
  have hnospace : ∀ c ∈ canonicalWatchUrl vid, isPySpace c = false := by
    intro c hc
    unfold canonicalWatchUrl at hc
    rcases List.mem_append.mp hc with hc | hc
    · have hcon : ∀ d ∈ ("https://www.youtube.com/watch?v=").data, isPySpace d = false := by
        decide
      exact hcon c hc
    · exact (safe_char_facts (hv c hc)).1
  have h0 : removeUnsafeChars (canonicalWatchUrl vid) = canonicalWatchUrl vid :=
    removeUnsafeChars_eq_self hnospace
  have hstrip : pyStrip (canonicalWatchUrl vid) = canonicalWatchUrl vid :=
    pyStrip_eq_self hnospace
  have hsplitEq : pyUrlsplit (canonicalWatchUrl vid)
      = ⟨("https").data, ("www.youtube.com").data, ("/watch").data,
         (("v=").data) ++ vid, []⟩ := by
    rw [pyUrlsplit_red _ h0]
    have hform : canonicalWatchUrl vid
        = ("https").data ++ ':' :: ('/' :: '/' :: (("www.youtube.com").data ++
            ((("/watch").data) ++ '?' :: ((("v=").data) ++ vid)))) := rfl
    rw [hform]
    rw [splitSchemePart_scheme_colon (by decide) (by decide) (by decide) (by decide)]
    dsimp only
    rw [splitNetloc_after_slashes (by decide) (.inr (show isNetlocDelim
      (((("/watch").data) ++ '?' :: ((("v=").data) ++ vid)).headD ' ') = true from rfl))]
    dsimp only
    have hnh : ∀ c ∈ (("/watch").data) ++ '?' :: ((("v=").data) ++ vid), c ≠ '#' := by
      intro c hc
      rcases List.mem_append.mp hc with hc | hc
      · have hcon : ∀ d ∈ (("/watch").data), d ≠ '#' := by decide
        exact hcon c hc
      · rcases List.mem_cons.mp hc with rfl | hc
        · decide
        · rcases List.mem_append.mp hc with hc | hc
          · have hcon : ∀ d ∈ (("v=").data), d ≠ '#' := by decide
            exact hcon c hc
          · exact (safe_char_facts (hv c hc)).2.1
    rw [splitFragmentPart_no_hash hnh]
    dsimp only
    rw [splitQueryPart_append (by decide)]
  have hparse : pyUrlparse (canonicalWatchUrl vid)
      = ⟨("https").data, ("www.youtube.com").data, ("/watch").data, [],
         (("v=").data) ++ vid, []⟩ := by
    unfold pyUrlparse
    rw [hsplitEq]
    rfl
  have htr : truthyOpt (some vid) = true := by
    cases vid with
    | nil => exact absurd rfl hvne
    | cons a as => rfl
  have hext : extractVideoId (pyUrlparse (canonicalWatchUrl vid)) = some vid := by
    rw [hparse]
    exact extractVideoId_watch
      (show containsSub (("youtu.be").data) (lowerChars (("www.youtube.com").data))
        = false from by decide)
      (show (("/watch").data).isPrefixOf (("/watch").data) = true from by decide)
      (qsGetFirst_v vid hvne hv) htr
  have hne : canonicalWatchUrl vid ≠ [] := by
    unfold canonicalWatchUrl
    simp
  have hsch : ¬ (pyUrlparse (canonicalWatchUrl vid)).scheme = [] := by
    rw [hparse]
    exact (show ¬ (("https").data = ([] : Chars)) from by decide)
  have hrec : recognizedVideoNetloc
      (lowerChars (pyUrlparse (canonicalWatchUrl vid)).netloc) = true := by
    rw [hparse]
    exact (show recognizedVideoNetloc (lowerChars (("www.youtube.com").data)) = true
      from by decide)
  exact normalize_vid_branch _ vid hne hstrip hsch hrec hext hvne

/-- A `youtu.be` short link with a well-formed id normalizes to the
canonical watch URL. -/
theorem normalize_shortlink_variant (vid : Chars) (hvne : vid ≠ [])
    (hv : ∀ c ∈ vid, c.isAlpha = true ∨ c.isDigit = true ∨ c = '-' ∨ c = '_') :
    normalizeSourceUrlChars (some ((("https://youtu.be/").data) ++ vid))
      = some (canonicalWatchUrl vid) := by
  have hnospace : ∀ c ∈ (("https://youtu.be/").data) ++ vid, isPySpace c = false := by
    intro c hc
    rcases List.mem_append.mp hc with hc | hc
    · have hcon : ∀ d ∈ ("https://youtu.be/").data, isPySpace d = false := by decide
      exact hcon c hc
    · exact (safe_char_facts (hv c hc)).1
  have h0 : removeUnsafeChars ((("https://youtu.be/").data) ++ vid)
      = (("https://youtu.be/").data) ++ vid := removeUnsafeChars_eq_self hnospace
  have hstrip : pyStrip ((("https://youtu.be/").data) ++ vid)
      = (("https://youtu.be/").data) ++ vid := pyStrip_eq_self hnospace
  have hpathmem : ∀ c ∈ '/' :: vid, c ≠ '#' ∧ c ≠ '?' ∧ c ≠ ';' := by
    intro c hc
    rcases List.mem_cons.mp hc with rfl | hc
    · exact ⟨by decide, by decide, by decide⟩
    · have hf := safe_char_facts (hv c hc)
      exact ⟨hf.2.1, hf.2.2.2.2.2.1, hf.2.2.2.2.2.2.2⟩
  have hsplitEq : pyUrlsplit ((("https://youtu.be/").data) ++ vid)
      = ⟨("https").data, ("youtu.be").data, '/' :: vid, [], []⟩ := by
    rw [pyUrlsplit_red _ h0]
    have hform : (("https://youtu.be/").data) ++ vid
        = ("https").data ++ ':' :: ('/' :: '/' :: (("youtu.be").data ++ ('/' :: vid))) :=
      rfl
    rw [hform]
    rw [splitSchemePart_scheme_colon (by decide) (by decide) (by decide) (by decide)]
    dsimp only
    rw [splitNetloc_after_slashes (by decide)
      (.inr (show isNetlocDelim (('/' :: vid).headD ' ') = true from rfl))]
    dsimp only
    rw [splitFragmentPart_no_hash (fun c hc => (hpathmem c hc).1)]
    dsimp only
    rw [splitQueryPart_no_q (fun c hc => (hpathmem c hc).2.1)]
  have hsemi : (('/' :: vid).contains ';') = false :=
    (contains_false_iff _ _).mpr (fun hc => (hpathmem ';' hc).2.2 rfl)
  have hpp : pathParams ('/' :: vid) = ('/' :: vid, []) := by
    unfold pathParams
    rw [if_neg (by rw [hsemi]; simp)]
  have hparse : pyUrlparse ((("https://youtu.be/").data) ++ vid)
      = ⟨("https").data, ("youtu.be").data, '/' :: vid, [], [], []⟩ := by
    unfold pyUrlparse
    rw [hsplitEq]
    dsimp only
    rw [hpp]
  have htr : truthyOpt (some vid) = true := by
    cases vid with
    | nil => exact absurd rfl hvne
    | cons a as => rfl
  have hnosl : ∀ c ∈ vid, c ≠ '/' := fun c hc => (safe_char_facts (hv c hc)).2.2.2.2.2.2.1
  have hparts : pathParts ('/' :: vid) = [vid] := by
    unfold pathParts
    rw [splitOnChar_cons_sep, splitOnChar_no_sep hnosl]
    cases vid with
    | nil => exact absurd rfl hvne
    | cons v0 vs => rfl
  have hext : extractVideoId (pyUrlparse ((("https://youtu.be/").data) ++ vid))
      = some vid := by
    rw [hparse]
    exact extractVideoId_shortlink
      (show containsSub (("youtu.be").data) (lowerChars (("youtu.be").data)) = true
        from by decide)
      (show (pathParts ('/' :: vid)).head? = some vid from by rw [hparts]; rfl)
      htr
  have hne : (("https://youtu.be/").data) ++ vid ≠ [] := by simp
  have hsch : ¬ (pyUrlparse ((("https://youtu.be/").data) ++ vid)).scheme = [] := by
    rw [hparse]
    exact (show ¬ (("https").data = ([] : Chars)) from by decide)
  have hrec : recognizedVideoNetloc
      (lowerChars (pyUrlparse ((("https://youtu.be/").data) ++ vid)).netloc) = true := by
    rw [hparse]
    exact (show recognizedVideoNetloc (lowerChars (("youtu.be").data)) = true
      from by decide)
  exact normalize_vid_branch _ vid hne hstrip hsch hrec hext hvne

/-- A `/shorts/` link with a well-formed id normalizes to the canonical
watch URL. -/
theorem normalize_shorts_variant (vid : Chars) (hvne : vid ≠ [])
    (hv : ∀ c ∈ vid, c.isAlpha = true ∨ c.isDigit = true ∨ c = '-' ∨ c = '_') :
    normalizeSourceUrlChars (some ((("https://www.youtube.com/shorts/").data) ++ vid))
      = some (canonicalWatchUrl vid) := by
  have hnospace : ∀ c ∈ (("https://www.youtube.com/shorts/").data) ++ vid,
      isPySpace c = false := by
    intro c hc
    rcases List.mem_append.mp hc with hc | hc
    · have hcon : ∀ d ∈ ("https://www.youtube.com/shorts/").data, isPySpace d = false := by
        decide
      exact hcon c hc
    · exact (safe_char_facts (hv c hc)).1
  have h0 := removeUnsafeChars_eq_self hnospace
  have hstrip := pyStrip_eq_self hnospace
  have hpathmem : ∀ c ∈ (("/shorts/").data) ++ vid, c ≠ '#' ∧ c ≠ '?' ∧ c ≠ ';' := by
    intro c hc
    rcases List.mem_append.mp hc with hc | hc
    · have hcon : ∀ d ∈ ("/shorts/").data, d ≠ '#' ∧ d ≠ '?' ∧ d ≠ ';' := by decide
      exact hcon c hc
    · have hf := safe_char_facts (hv c hc)
      exact ⟨hf.2.1, hf.2.2.2.2.2.1, hf.2.2.2.2.2.2.2⟩
  have hsplitEq : pyUrlsplit ((("https://www.youtube.com/shorts/").data) ++ vid)
      = ⟨("https").data, ("www.youtube.com").data, (("/shorts/").data) ++ vid, [], []⟩ := by
    rw [pyUrlsplit_red _ h0]
    have hform : (("https://www.youtube.com/shorts/").data) ++ vid
        = ("https").data ++ ':' :: ('/' :: '/' :: (("www.youtube.com").data ++
            ((("/shorts/").data) ++ vid))) := rfl
    rw [hform]
    rw [splitSchemePart_scheme_colon (by decide) (by decide) (by decide) (by decide)]
    dsimp only
    rw [splitNetloc_after_slashes (by decide)
      (.inr (show isNetlocDelim (((("/shorts/").data) ++ vid).headD ' ') = true from rfl))]
    dsimp only
    rw [splitFragmentPart_no_hash (fun c hc => (hpathmem c hc).1)]
    dsimp only
    rw [splitQueryPart_no_q (fun c hc => (hpathmem c hc).2.1)]
  have hsemi : (((("/shorts/").data) ++ vid).contains ';') = false :=
    (contains_false_iff _ _).mpr (fun hc => (hpathmem ';' hc).2.2 rfl)
  have hpp : pathParams ((("/shorts/").data) ++ vid) = ((("/shorts/").data) ++ vid, []) := by
    unfold pathParams
    rw [if_neg (by rw [hsemi]; simp)]
  have hparse : pyUrlparse ((("https://www.youtube.com/shorts/").data) ++ vid)
      = ⟨("https").data, ("www.youtube.com").data, (("/shorts/").data) ++ vid,
         [], [], []⟩ := by
    unfold pyUrlparse
    rw [hsplitEq]
    dsimp only
    rw [hpp]
  have htr : truthyOpt (some vid) = true := by
    cases vid with
    | nil => exact absurd rfl hvne
    | cons a as => rfl
  have hnosl : ∀ c ∈ vid, c ≠ '/' := fun c hc => (safe_char_facts (hv c hc)).2.2.2.2.2.2.1
  have hparts : pathParts ((("/shorts/").data) ++ vid) = [("shorts").data, vid] := by
    have t0 : splitOnChar '/' vid = [vid] := splitOnChar_no_sep hnosl
    have t1 : splitOnChar '/' ('/' :: vid) = [] :: [vid] := by
      rw [splitOnChar_cons_sep, t0]
    have t2 := splitOnChar_cons_ne_of (show 's' ≠ '/' from by decide) t1
    have t3 := splitOnChar_cons_ne_of (show 't' ≠ '/' from by decide) t2
    have t4 := splitOnChar_cons_ne_of (show 'r' ≠ '/' from by decide) t3
    have t5 := splitOnChar_cons_ne_of (show 'o' ≠ '/' from by decide) t4
    have t6 := splitOnChar_cons_ne_of (show 'h' ≠ '/' from by decide) t5
    have t7 := splitOnChar_cons_ne_of (show 's' ≠ '/' from by decide) t6
    have t8 : splitOnChar '/' ((("/shorts/").data) ++ vid)
        = [[], ("shorts").data, vid] := by
      show splitOnChar '/' ('/' :: 's' :: 'h' :: 'o' :: 'r' :: 't' :: 's' :: '/' :: vid)
        = [[], ("shorts").data, vid]
      rw [splitOnChar_cons_sep, t7]
    unfold pathParts
    rw [t8]
    cases vid with
    | nil => exact absurd rfl hvne
    | cons v0 vs => rfl
  have hext : extractVideoId
      (pyUrlparse ((("https://www.youtube.com/shorts/").data) ++ vid)) = some vid := by
    rw [hparse]
    exact extractVideoId_shorts
      (show containsSub (("youtu.be").data) (lowerChars (("www.youtube.com").data))
        = false from by decide)
      (show (("/watch").data).isPrefixOf ((("/shorts/").data) ++ vid) = false from rfl)
      (show (("/shorts/").data).isPrefixOf ((("/shorts/").data) ++ vid) = true from by simp [List.isPrefixOf, String.data])
      hparts htr
  have hne : (("https://www.youtube.com/shorts/").data) ++ vid ≠ [] := by simp
  have hsch : ¬ (pyUrlparse ((("https://www.youtube.com/shorts/").data) ++ vid)).scheme
      = [] := by
    rw [hparse]
    exact (show ¬ (("https").data = ([] : Chars)) from by decide)
  have hrec : recognizedVideoNetloc (lowerChars
      (pyUrlparse ((("https://www.youtube.com/shorts/").data) ++ vid)).netloc) = true := by
    rw [hparse]
    exact (show recognizedVideoNetloc (lowerChars (("www.youtube.com").data)) = true
      from by decide)
  exact normalize_vid_branch _ vid hne hstrip hsch hrec hext hvne

/-- An `/embed/` link with a well-formed id normalizes to the canonical
watch URL. -/
theorem normalize_embed_variant (vid : Chars) (hvne : vid ≠ [])
    (hv : ∀ c ∈ vid, c.isAlpha = true ∨ c.isDigit = true ∨ c = '-' ∨ c = '_') :
    normalizeSourceUrlChars (some ((("https://www.youtube.com/embed/").data) ++ vid))
      = some (canonicalWatchUrl vid) := by
  have hnospace : ∀ c ∈ (("https://www.youtube.com/embed/").data) ++ vid,
      isPySpace c = false := by
    intro c hc
    rcases List.mem_append.mp hc with hc | hc
    · have hcon : ∀ d ∈ ("https://www.youtube.com/embed/").data, isPySpace d = false := by
        decide
      exact hcon c hc
    · exact (safe_char_facts (hv c hc)).1
  have h0 := removeUnsafeChars_eq_self hnospace
  have hstrip := pyStrip_eq_self hnospace
  have hpathmem : ∀ c ∈ (("/embed/").data) ++ vid, c ≠ '#' ∧ c ≠ '?' ∧ c ≠ ';' := by
    intro c hc
    rcases List.mem_append.mp hc with hc | hc
    · have hcon : ∀ d ∈ ("/embed/").data, d ≠ '#' ∧ d ≠ '?' ∧ d ≠ ';' := by decide
      exact hcon c hc
    · have hf := safe_char_facts (hv c hc)
      exact ⟨hf.2.1, hf.2.2.2.2.2.1, hf.2.2.2.2.2.2.2⟩
  have hsplitEq : pyUrlsplit ((("https://www.youtube.com/embed/").data) ++ vid)
      = ⟨("https").data, ("www.youtube.com").data, (("/embed/").data) ++ vid, [], []⟩ := by
    rw [pyUrlsplit_red _ h0]
    have hform : (("https://www.youtube.com/embed/").data) ++ vid
        = ("https").data ++ ':' :: ('/' :: '/' :: (("www.youtube.com").data ++
            ((("/embed/").data) ++ vid))) := rfl
    rw [hform]
    rw [splitSchemePart_scheme_colon (by decide) (by decide) (by decide) (by decide)]
    dsimp only
    rw [splitNetloc_after_slashes (by decide)
      (.inr (show isNetlocDelim (((("/embed/").data) ++ vid).headD ' ') = true from rfl))]
    dsimp only
    rw [splitFragmentPart_no_hash (fun c hc => (hpathmem c hc).1)]
    dsimp only
    rw [splitQueryPart_no_q (fun c hc => (hpathmem c hc).2.1)]
  have hsemi : (((("/embed/").data) ++ vid).contains ';') = false :=
    (contains_false_iff _ _).mpr (fun hc => (hpathmem ';' hc).2.2 rfl)
  have hpp : pathParams ((("/embed/").data) ++ vid) = ((("/embed/").data) ++ vid, []) := by
    unfold pathParams
    rw [if_neg (by rw [hsemi]; simp)]
  have hparse : pyUrlparse ((("https://www.youtube.com/embed/").data) ++ vid)
      = ⟨("https").data, ("www.youtube.com").data, (("/embed/").data) ++ vid,
         [], [], []⟩ := by
    unfold pyUrlparse
    rw [hsplitEq]
    dsimp only
    rw [hpp]
  have htr : truthyOpt (some vid) = true := by
    cases vid with
    | nil => exact absurd rfl hvne
    | cons a as => rfl
  have hnosl : ∀ c ∈ vid, c ≠ '/' := fun c hc => (safe_char_facts (hv c hc)).2.2.2.2.2.2.1
  have hparts : pathParts ((("/embed/").data) ++ vid) = [("embed").data, vid] := by
    have t0 : splitOnChar '/' vid = [vid] := splitOnChar_no_sep hnosl
    have t1 : splitOnChar '/' ('/' :: vid) = [] :: [vid] := by
      rw [splitOnChar_cons_sep, t0]
    have t2 := splitOnChar_cons_ne_of (show 'd' ≠ '/' from by decide) t1
    have t3 := splitOnChar_cons_ne_of (show 'e' ≠ '/' from by decide) t2
    have t4 := splitOnChar_cons_ne_of (show 'b' ≠ '/' from by decide) t3
    have t5 := splitOnChar_cons_ne_of (show 'm' ≠ '/' from by decide) t4
    have t6 := splitOnChar_cons_ne_of (show 'e' ≠ '/' from by decide) t5
    have t8 : splitOnChar '/' ((("/embed/").data) ++ vid)
        = [[], ("embed").data, vid] := by
      show splitOnChar '/' ('/' :: 'e' :: 'm' :: 'b' :: 'e' :: 'd' :: '/' :: vid)
        = [[], ("embed").data, vid]
      rw [splitOnChar_cons_sep, t6]
    unfold pathParts
    rw [t8]
    cases vid with
    | nil => exact absurd rfl hvne
    | cons v0 vs => rfl
  have hext : extractVideoId
      (pyUrlparse ((("https://www.youtube.com/embed/").data) ++ vid)) = some vid := by
    rw [hparse]
    exact extractVideoId_embed
      (show containsSub (("youtu.be").data) (lowerChars (("www.youtube.com").data))
        = false from by decide)
      (show (("/watch").data).isPrefixOf ((("/embed/").data) ++ vid) = false from rfl)
      (show (("/shorts/").data).isPrefixOf ((("/embed/").data) ++ vid) = false from rfl)
      (show (("/embed/").data).isPrefixOf ((("/embed/").data) ++ vid) = true from by simp [List.isPrefixOf, String.data])
      hparts htr
  have hne : (("https://www.youtube.com/embed/").data) ++ vid ≠ [] := by simp
  have hsch : ¬ (pyUrlparse ((("https://www.youtube.com/embed/").data) ++ vid)).scheme
      = [] := by
    rw [hparse]
    exact (show ¬ (("https").data = ([] : Chars)) from by decide)
  have hrec : recognizedVideoNetloc (lowerChars
      (pyUrlparse ((("https://www.youtube.com/embed/").data) ++ vid)).netloc) = true := by
    rw [hparse]
    exact (show recognizedVideoNetloc (lowerChars (("www.youtube.com").data)) = true
      from by decide)
  exact normalize_vid_branch _ vid hne hstrip hsch hrec hext hvne

/-! Parsing a URL with a fragment appended: the `#` and everything after it
land in the fragment, the other parts are untouched. -/

theorem takeWhile_append_of_lt {p : Char → Bool} {A : Chars} (B : Chars)
    (h : (A.takeWhile p).length < A.length) :
    (A ++ B).takeWhile p = A.takeWhile p ∧
    (A ++ B).dropWhile p = A.dropWhile p ++ B := by
  induction A with
  | nil => simp at h
  | cons a as ih =>
    by_cases hp : p a = true
    · have h2 : (as.takeWhile p).length < as.length := by
        rw [List.takeWhile_cons, if_pos hp] at h
        simp at h
        omega
      obtain ⟨ht, hd⟩ := ih h2
      constructor
      · rw [List.cons_append, List.takeWhile_cons, if_pos hp, ht,
          List.takeWhile_cons, if_pos hp]
      · rw [List.cons_append, List.dropWhile_cons, if_pos hp, hd,
          List.dropWhile_cons, if_pos hp]
    · have hp2 : p a = false := by revert hp; cases (p a) <;> simp
      constructor
      · rw [List.cons_append, List.takeWhile_cons, if_neg (by rw [hp2]; simp),
          List.takeWhile_cons, if_neg (by rw [hp2]; simp)]
      · rw [List.cons_append, List.dropWhile_cons, if_neg (by rw [hp2]; simp),
          List.dropWhile_cons, if_neg (by rw [hp2]; simp), List.cons_append]

theorem splitSchemePart_eval (U : Chars) :
    splitSchemePart U
      = if (U.takeWhile (fun c => c ≠ ':')).length < U.length ∧
            U.takeWhile (fun c => c ≠ ':') ≠ [] ∧
            ((U.takeWhile (fun c => c ≠ ':')).headD ' ').isAlpha = true ∧
            (U.takeWhile (fun c => c ≠ ':')).all isSchemeChar = true then
          (lowerChars (U.takeWhile (fun c => c ≠ ':')),
           U.drop ((U.takeWhile (fun c => c ≠ ':')).length + 1))
        else ([], U) := rfl

theorem splitSchemePart_append_frag {U frag : Chars}
    (h : (splitSchemePart U).1 ≠ []) :
    splitSchemePart (U ++ '#' :: frag)
      = ((splitSchemePart U).1, (splitSchemePart U).2 ++ '#' :: frag) := by
  obtain ⟨hlen, hne, hhd, hall, heq⟩ := splitSchemePart_of_ne h
  obtain ⟨ht, -⟩ := takeWhile_append_of_lt (p := fun c => c ≠ ':') ('#' :: frag) hlen
  rw [splitSchemePart_eval (U ++ '#' :: frag), ht]
  rw [if_pos ⟨by rw [List.length_append]; omega, hne, hhd, hall⟩]
  rw [heq]
  dsimp only
  rw [List.drop_append_of_le_length (by omega)]

theorem splitNetlocPart_append_frag (R frag : Chars) :
    splitNetlocPart (R ++ '#' :: frag)
      = ((splitNetlocPart R).1, (splitNetlocPart R).2 ++ '#' :: frag) := by
  by_cases h2 : R.take 2 = ['/', '/']
  · cases R with
    | nil => simp at h2
    | cons r1 R1 =>
      cases R1 with
      | nil =>
        exfalso
        have h3 : [r1] = ['/', '/'] := h2
        simp at h3
      | cons r2 body =>
        have hr : r1 = '/' ∧ r2 = '/' := by
          have h3 : [r1, r2] = ['/', '/'] := h2
          simpa using h3
        obtain ⟨rfl, rfl⟩ := hr
        unfold splitNetlocPart
        rw [if_pos (show List.take 2 (('/' :: '/' :: body) ++ '#' :: frag) = ['/', '/']
            from rfl),
          if_pos (show List.take 2 ('/' :: '/' :: body) = ['/', '/'] from rfl)]
        dsimp only
        rw [show List.drop 2 (('/' :: '/' :: body) ++ '#' :: frag) = body ++ '#' :: frag
            from rfl,
          show List.drop 2 ('/' :: '/' :: body) = body from rfl]
        rw [takeWhile_append_mid (by decide), dropWhile_append_mid (by decide)]
  · have h2' : ¬ (R ++ '#' :: frag).take 2 = ['/', '/'] := by
      intro hcontra
      exact h2 (take2_append_q (by decide) hcontra)
    unfold splitNetlocPart
    rw [if_neg h2, if_neg h2']

theorem splitFragmentPart_append {N frag : Chars} (h : ∀ c ∈ N, c ≠ '#') :
    splitFragmentPart (N ++ '#' :: frag) = (N, frag) := by
  unfold splitFragmentPart splitFirst
  rw [if_pos (List.elem_iff.mpr (by simp))]
  have hall : ∀ c ∈ N, (fun c => decide (c ≠ '#')) c = true := by
    intro c hc
    simp [h c hc]
  rw [takeWhile_append_mid (by simp), dropWhile_append_mid (by simp),
    takeWhile_all_eq_self hall, dropWhile_all_eq_nil hall]
  simp

theorem pyUrlsplit_append_frag (u frag : Chars)
    (hws : ∀ c ∈ u ++ '#' :: frag, isPySpace c = false)
    (hnoh : ¬ '#' ∈ u)
    (hsch : (pyUrlsplit u).scheme ≠ []) :
    pyUrlsplit (u ++ '#' :: frag) = { pyUrlsplit u with fragment := frag } ∧
    (pyUrlsplit u).fragment = [] := by
  have hws_u : ∀ c ∈ u, isPySpace c = false := fun c hc => hws c (by simp [hc])
  have h0u : removeUnsafeChars u = u := removeUnsafeChars_eq_self hws_u
  have h0a : removeUnsafeChars (u ++ '#' :: frag) = u ++ '#' :: frag :=
    removeUnsafeChars_eq_self hws
  have hsch' : (splitSchemePart u).1 ≠ [] := by
    rw [pyUrlsplit_red u h0u] at hsch
    exact hsch
  have hN : ∀ c ∈ (splitNetlocPart (splitSchemePart u).2).2, c ≠ '#' := by
    intro c hc he
    subst he
    obtain ⟨-, -, hn3, -⟩ := splitNetlocPart_facts (splitSchemePart u).2
    obtain ⟨k, hk⟩ := splitSchemePart_snd_drop u
    have h1 := hn3 _ hc
    rw [hk] at h1
    exact hnoh (List.mem_of_mem_drop h1)
  rw [pyUrlsplit_red _ h0a, pyUrlsplit_red _ h0u]
  rw [splitSchemePart_append_frag hsch']
  dsimp only
  rw [splitNetlocPart_append_frag]
  dsimp only
  rw [splitFragmentPart_append hN, splitFragmentPart_no_hash hN]
  exact ⟨rfl, rfl⟩

/-! ## C5 and C9: the amended normalization claims -/

/-- C5 (amended): `normalize_source_url` is idempotent on every URL that has
no whitespace, does not pair an empty authority with a `//`-leading path,
and whose extracted video id (when one is extracted) is over the id alphabet
`[A-Za-z0-9_-]`; and the recognized provider link variants for one id — the
`youtu.be` short link, the `/watch?v=` form (the canonical watch URL), the
`/shorts/` form and the `/embed/` form — all normalize to the same canonical
watch URL. -/
theorem normalize_idempotent_amended :
    (∀ u : Chars,
      (∀ c ∈ u, isPySpace c = false) →
      ¬((pyUrlsplit u).netloc = [] ∧ (pyUrlsplit u).path.take 2 = ['/', '/']) →
      (∀ vid, extractVideoId (pyUrlparse u) = some vid →
        ∀ c ∈ vid, c.isAlpha = true ∨ c.isDigit = true ∨ c = '-' ∨ c = '_') →
      normalizeSourceUrlChars (normalizeSourceUrlChars (some u))
        = normalizeSourceUrlChars (some u)) ∧
    (∀ vid : Chars, vid ≠ [] →
      (∀ c ∈ vid, c.isAlpha = true ∨ c.isDigit = true ∨ c = '-' ∨ c = '_') →
      normalizeSourceUrlChars (some ((("https://youtu.be/").data) ++ vid))
          = some (canonicalWatchUrl vid) ∧
      normalizeSourceUrlChars (some (canonicalWatchUrl vid))
          = some (canonicalWatchUrl vid) ∧
      normalizeSourceUrlChars (some ((("https://www.youtube.com/shorts/").data) ++ vid))
          = some (canonicalWatchUrl vid) ∧
      normalizeSourceUrlChars (some ((("https://www.youtube.com/embed/").data) ++ vid))
          = some (canonicalWatchUrl vid)) := by
  constructor
  · intro u hws hdbl hsafe
    by_cases hne : u = []
    · subst hne
      rw [show normalizeSourceUrlChars (some ([] : Chars)) = none from rfl]
      rfl
    · have hstrip : pyStrip u = u := pyStrip_eq_self hws
      by_cases hsch : (pyUrlparse u).scheme = []
      · rw [normalize_plain_branch u hne hstrip hsch]
        exact normalize_plain_branch u hne hstrip hsch
      · by_cases hrec : recognizedVideoNetloc (lowerChars (pyUrlparse u).netloc) = true
        · cases hev : extractVideoId (pyUrlparse u) with
          | none =>
            rw [normalize_generic_branch u hne hstrip hsch (.inr (.inl hev))]
            refine normalize_generic_fixpoint u hws hsch hdbl (.inr ?_)
            intro vid hv
            rw [hev] at hv
            exact absurd hv (by simp)
          | some vid =>
            by_cases hvne : vid = []
            · subst hvne
              rw [normalize_generic_branch u hne hstrip hsch (.inr (.inr hev))]
              refine normalize_generic_fixpoint u hws hsch hdbl (.inr ?_)
              intro w hw
              rw [hev] at hw
              exact (Option.some.inj hw).symm
            · rw [normalize_vid_branch u vid hne hstrip hsch hrec hev hvne]
              exact normalize_canonical_fixpoint vid hvne (hsafe vid hev)
        · have hrec2 : recognizedVideoNetloc (lowerChars (pyUrlparse u).netloc)
              = false := by
            cases hx : recognizedVideoNetloc (lowerChars (pyUrlparse u).netloc) with
            | false => rfl
            | true => exact absurd hx hrec
          rw [normalize_generic_branch u hne hstrip hsch (.inl hrec2)]
          exact normalize_generic_fixpoint u hws hsch hdbl (.inl hrec2)
  · intro vid hvne hv
    exact ⟨normalize_shortlink_variant vid hvne hv,
      normalize_canonical_fixpoint vid hvne hv,
      normalize_shorts_variant vid hvne hv,
      normalize_embed_variant vid hvne hv⟩

theorem normalize_idempotent_amended_witness :
    normalizeSourceUrlChars (normalizeSourceUrlChars
        (some (("http://example.org/a?b=c").data)))
      = normalizeSourceUrlChars (some (("http://example.org/a?b=c").data)) ∧
    normalizeSourceUrlChars (some ((("https://youtu.be/").data) ++ ("dQw4w9WgXcQ").data))
      = some (canonicalWatchUrl (("dQw4w9WgXcQ").data)) := by
  constructor
  · refine normalize_idempotent_amended.1 (("http://example.org/a?b=c").data)
      (by decide) (by decide) ?_
    intro vid hv
    rw [show extractVideoId (pyUrlparse (("http://example.org/a?b=c").data)) = none
      from by decide] at hv
    exact absurd hv (by simp)
  · exact (normalize_idempotent_amended.2 (("dQw4w9WgXcQ").data)
      (by decide) (by decide)).1

/-- C9 (amended): on non-provider absolute URLs `normalize_source_url` strips
the fragment and otherwise re-serializes the parse (which also lowercases
the scheme and drops empty `?`-markers); for a whitespace-free absolute URL
`u` that contains no `#`, is not on a recognized video host, and re-serializes
to itself, normalizing `u ++ '#' :: frag` returns exactly `u` — the fragment
and nothing else is removed.  A string with no URL scheme is returned
stripped of surrounding whitespace, hence unchanged when there is none. -/
theorem normalize_non_provider_amended :
    (∀ u frag : Chars,
      (∀ c ∈ u ++ '#' :: frag, isPySpace c = false) →
      ¬ '#' ∈ u →
      ¬ (pyUrlparse u).scheme = [] →
      recognizedVideoNetloc (lowerChars (pyUrlparse u).netloc) = false →
      pyUrlunparse (pyUrlparse u) = u →
      normalizeSourceUrlChars (some (u ++ '#' :: frag)) = some u) ∧
    (∀ s : Chars, s ≠ [] → pyStrip s = s → (pyUrlparse s).scheme = [] →
      normalizeSourceUrlChars (some s) = some s) := by
  constructor
  · intro u frag hws hnoh hsch hrec hcanon
    have hconv : (pyUrlparse u).scheme = (pyUrlsplit u).scheme := rfl
    have hsch0 : (pyUrlsplit u).scheme ≠ [] := by
      intro he
      exact hsch (by rw [hconv]; exact he)
    obtain ⟨hsplit_a, hfrag0⟩ := pyUrlsplit_append_frag u frag hws hnoh hsch0
    have hparse_a : pyUrlparse (u ++ '#' :: frag)
        = { pyUrlparse u with fragment := frag } := by
      unfold pyUrlparse
      rw [hsplit_a]
    have hne : u ++ '#' :: frag ≠ [] := by simp
    have hstrip : pyStrip (u ++ '#' :: frag) = u ++ '#' :: frag := pyStrip_eq_self hws
    have hsch_a : ¬ (pyUrlparse (u ++ '#' :: frag)).scheme = [] := by
      rw [hparse_a]
      exact hsch
    have hrec_a : recognizedVideoNetloc
        (lowerChars (pyUrlparse (u ++ '#' :: frag)).netloc) = false := by
      rw [hparse_a]
      exact hrec
    rw [normalize_generic_branch _ hne hstrip hsch_a (.inl hrec_a), hparse_a]
    have hgen : genericNormalizedUrl { pyUrlparse u with fragment := frag }
        = pyUrlunparse { pyUrlparse u with fragment := [] } := rfl
    rw [hgen]
    have hfr : (pyUrlparse u).fragment = [] := hfrag0
    have hupd : ({ pyUrlparse u with fragment := [] } : UrlParts) = pyUrlparse u := by
      rw [← hfr]
    rw [hupd, hcanon]
  · intro s hne hstrip hsch
    exact normalize_plain_branch s hne hstrip hsch

theorem normalize_non_provider_amended_witness :
    normalizeSourceUrlChars
        (some ((("http://example.org/path?q=1").data) ++ '#' :: ("sec").data))
      = some (("http://example.org/path?q=1").data) ∧
    normalizeSourceUrlChars (some (("no scheme").data)) = some (("no scheme").data) :=
  ⟨normalize_non_provider_amended.1 (("http://example.org/path?q=1").data)
      (("sec").data) (by decide) (by decide) (by decide) (by decide) (by decide),
   normalize_non_provider_amended.2 (("no scheme").data)
      (by decide) (by decide) (by decide)⟩
